import Mathlib

/-!
# Shallow embedding of the TaskStuff promise/future library

Source: `src/task_stuff.h` (namespace `TaskStuff`, the full implementation)
and `src/future_continuation.h` (namespace `Futures`, an early incomplete
sketch of the same design).

Modelling conventions:
* Shared states (`PromiseFutureState<T>` / `PromiseFutureState<void>`) live in
  a heap (`World.states`, indexed by `Nat`).  The value-carrying and the void
  specialisation are merged into one record `FState` carrying both the
  `_value_` slot and the `_done_` flag; each concrete state only ever uses the
  fields of its variant, exactly as in the two C++ classes.
* C++ value types are collapsed to `Val` (`Nat` for element values,
  `List Nat` for the aggregate produced by `WhenAll` over a span).  The C++
  template polymorphism is orthogonal to all the claims checked here.
* Exceptions (`std::exception_ptr`) are modelled by the inductive `Err`.
* User continuation functions are Lean functions `Val → Except Err Val`
  (a `.error` result models the function throwing); the `WhenAll` internal
  lambdas, which mutate the shared combinator context, are first-order tags
  interpreted by the machine, exactly mirroring the lambda bodies in the
  source.
* Handle-local data (`_state_` pointer, `_future_retrieved_`,
  `_value_set_` / `_is_done_`) lives in the handle records `PromiseObj` /
  `FutureObj`, as in the source.
* Reference counting (`_ref_count_`, `_addRef`, `_release`) only manages
  deallocation of the heap states; the model keeps states alive in the heap
  and drops the refcount bookkeeping, which no claim mentions.
* The state mutex: the source acquires `_mtx_value_` and, crucially, keeps
  holding it across calls into user code.  The model records every user-code
  invocation in an event log together with a boolean saying whether the state
  mutex was held at that moment, following the lexical extent of
  `std::unique_lock` in the source.
* Recursion through a chain of states (a `SetValue` that forwards into a
  chained promise, etc.) is bounded by an explicit fuel parameter; runs in the
  theorems use ample fuel, and exhaustion surfaces as the distinguished error
  `Err.outOfFuel`, which never occurs in any run below.
-/

namespace TaskStuff

/-- `enum class FutureErrorCode` from `task_stuff.h`. -/
inductive FutureErrorCode where
  | noneCode
  | brokenPromise
  | futureAlreadyRetrieved
  | promiseAlreadySatisfied
  | noState
  deriving DecidableEq, Repr

/-- Exceptions carried through the machine (`std::exception_ptr` values).
`futureError` is a thrown `FutureError`; `user` is an arbitrary user
exception; `aggregate` is a thrown `ExceptionAggregate` (its `Add` calls, in
order, give the list); `outOfFuel` is a model artefact for fuel exhaustion. -/
inductive Err where
  | futureError (c : FutureErrorCode)
  | user (n : Nat)
  | aggregate (es : List Err)
  | outOfFuel

/-- Values carried by futures: an element value (`int`-like) or the
`std::vector<ValueT>` produced by the span `WhenAll`. -/
inductive Val where
  | nat (x : Nat)
  | list (xs : List Nat)
  deriving DecidableEq, Repr

/-- Extract the element value (inputs of `WhenAll` are element-valued). -/
def Val.toNat : Val → Nat
  | .nat x => x
  | .list _ => 0

/-- A producer handle: `_state_` pointer, `_future_retrieved_`, and the
fulfilment flag (`_value_set_` for `Promise<T>`, `_is_done_` for
`Promise<void>`). -/
structure PromiseObj where
  state : Option Nat
  futureRetrieved : Bool
  valueSet : Bool
  deriving DecidableEq, Repr

/-- A consumer handle: just the `_state_` pointer. -/
structure FutureObj where
  state : Option Nat
  deriving DecidableEq, Repr

/-- A moved-from / default-constructed producer handle. -/
def PromiseObj.movedFrom : PromiseObj := ⟨none, false, false⟩

/-- A moved-from / default-constructed consumer handle. -/
def FutureObj.movedFrom : FutureObj := ⟨none⟩

/-- The effect run by a void-returning continuation function.  The only
void-returning continuations in the modelled fragment are the per-index value
lambdas of the span `WhenAll`; they mutate the shared combinator context. -/
inductive VoidEff where
  | whenAllVal (idx : Nat)
  deriving Repr

/-- The `_continuation_` slot contents (`InternalContinuationHolderIfc`).
`plain` is `InternalContinuationHolder` with a value-returning function (the
`tag` only feeds the event log); `plainVoid` is `InternalContinuationHolder`
instantiated at `result_type = void`; `chained` is
`InternalChainedContinuationHolder`, whose function returns a future. -/
inductive ContHolder where
  | plain (tag : Nat) (f : Val → Except Err Val) (rp : PromiseObj)
  | plainVoid (eff : VoidEff) (rp : PromiseObj)
  | chained (tag : Nat) (f : Val → Except Err FutureObj) (rp : PromiseObj)

/-- The `_on_exception_` slot contents.  `record tag` is a generic observer
that only records its argument in the event log; `whenAllExc idx` is the
per-index exception lambda of the span `WhenAll`. -/
inductive ExcFn where
  | record (tag : Nat)
  | whenAllExc (idx : Nat)
  deriving Repr

/-- One shared state (`PromiseFutureState<T>` / `PromiseFutureState<void>`
merged; the `value` slot belongs to the value variant, `done` to the void
variant). -/
structure FState where
  value : Option Val := none
  done : Bool := false
  exc : Option Err := none
  cont : Option ContHolder := none
  chainedPromise : Option PromiseObj := none
  onExc : Option ExcFn := none

/-- Event log entries. `userCall tag locked`: a user continuation function
(tagged `tag`) was invoked, with `locked` saying whether the invoking thread
held the state mutex; `excCall tag e locked`: an exception observer was
invoked with exception `e`; `chainForward locked`: an outcome was forwarded
into a chained promise. -/
inductive Event where
  | userCall (tag : Nat) (locked : Bool)
  | excCall (tag : Nat) (e : Err) (locked : Bool)
  | chainForward (locked : Bool)

/-- The shared combinator context of the span `WhenAll`
(`WhenAllContext`). -/
structure WAContext where
  values : List Nat := []
  countdown : Nat := 0
  promiseAll : PromiseObj := PromiseObj.movedFrom
  exceptions : List (Option Err) := []
  exceptionCount : Nat := 0

/-- The whole machine state: the heap of shared states, the (single)
`WhenAll` context, and the event log. -/
structure World where
  states : List FState := []
  ctx : WAContext := {}
  log : List Event := []

/-- Read a heap state (heap indices in all runs are in range). -/
def World.getSt (w : World) (i : Nat) : FState := w.states.getD i {}

/-- Write a heap state. -/
def World.setSt (w : World) (i : Nat) (s : FState) : World :=
  { w with states := w.states.set i s }

/-- Append an event to the log. -/
def World.logEv (w : World) (e : Event) : World :=
  { w with log := w.log ++ [e] }

/-- Allocate a fresh shared state (`new PromiseFutureState<...>()`), returning
its heap index. -/
def World.alloc (w : World) : World × Nat :=
  ({ w with states := w.states ++ [{}] }, w.states.length)

/-- `Promise::Promise()`: a fresh producer handle over a fresh state. -/
def promiseNew (w : World) : World × PromiseObj :=
  let (w, sid) := w.alloc
  (w, ⟨some sid, false, false⟩)

/-- `Promise::GetFuture()` (identical in both variants): throws
`FutureAlreadyRetrieved` on a second call, `NoState` on a moved-from handle;
otherwise marks the future retrieved and hands out a consumer handle on the
same state. -/
def getFuture (p : PromiseObj) : Except Err (PromiseObj × FutureObj) :=
  if p.futureRetrieved then
    .error (.futureError .futureAlreadyRetrieved)
  else
    match p.state with
    | none => .error (.futureError .noState)
    | some sid => .ok ({ p with futureRetrieved := true }, ⟨some sid⟩)

mutual

/-- `Promise<T>::SetValue` (task_stuff.h:525-554): guard
`PromiseAlreadySatisfied` / `NoState`; under the state mutex set
`_value_set_`; dispatch in order: continuation, chained promise, else store
the value and notify waiters. -/
def Promise.SetValue : Nat → World → PromiseObj → Val → Except Err (World × PromiseObj)
  | 0, _, _, _ => .error .outOfFuel
  | fuel+1, w, p, v =>
    if p.valueSet then .error (.futureError .promiseAlreadySatisfied)
    else
      match p.state with
      | none => .error (.futureError .noState)
      | some sid =>
        let p := { p with valueSet := true }
        let s := w.getSt sid
        match s.cont with
        | some ch => do
            let w ← ContHolder.Call fuel w sid ch v
            pure (w, p)
        | none =>
          match s.chainedPromise with
          | some cp => do
              let w := w.logEv (.chainForward true)
              let (w, cp') ← Promise.SetValue fuel w cp v
              pure (w.setSt sid { w.getSt sid with chainedPromise := some cp' }, p)
          | none =>
              pure (w.setSt sid { s with value := some v }, p)

/-- `Promise<T>::SetException` / `Promise<void>::SetException`
(task_stuff.h:556-588, 1103-1135): same guards; dispatch order continuation,
chained promise, exception observer, else store the exception and notify. -/
def Promise.SetException : Nat → World → PromiseObj → Err → Except Err (World × PromiseObj)
  | 0, _, _, _ => .error .outOfFuel
  | fuel+1, w, p, e =>
    if p.valueSet then .error (.futureError .promiseAlreadySatisfied)
    else
      match p.state with
      | none => .error (.futureError .noState)
      | some sid =>
        let p := { p with valueSet := true }
        let s := w.getSt sid
        match s.cont with
        | some ch => do
            let w ← ContHolder.SetExc fuel w sid ch e
            pure (w, p)
        | none =>
          match s.chainedPromise with
          | some cp => do
              let w := w.logEv (.chainForward true)
              let (w, cp') ← Promise.SetException fuel w cp e
              pure (w.setSt sid { w.getSt sid with chainedPromise := some cp' }, p)
          | none =>
            match s.onExc with
            | some ef => do
                let w ← ExcFn.run fuel w ef e true
                pure (w, p)
            | none =>
                pure (w.setSt sid { s with exc := some e }, p)

/-- `Promise<void>::SetDone` (task_stuff.h:1072-1101): same guards (via
`_is_done_`); dispatch continuation, chained promise, else set `_done_` and
notify.  Void-state continuations (`Future<void>::Then`) are outside the
modelled fragment — no run below ever stores one — so that branch surfaces as
the unreachable fuel error. -/
def Promise.SetDone : Nat → World → PromiseObj → Except Err (World × PromiseObj)
  | 0, _, _ => .error .outOfFuel
  | fuel+1, w, p =>
    if p.valueSet then .error (.futureError .promiseAlreadySatisfied)
    else
      match p.state with
      | none => .error (.futureError .noState)
      | some sid =>
        let p := { p with valueSet := true }
        let s := w.getSt sid
        match s.cont with
        | some _ => .error .outOfFuel
        | none =>
          match s.chainedPromise with
          | some cp => do
              let w := w.logEv (.chainForward true)
              let (w, cp') ← Promise.SetDone fuel w cp
              pure (w.setSt sid { w.getSt sid with chainedPromise := some cp' }, p)
          | none =>
              pure (w.setSt sid { s with done := true }, p)

/-- The `Call` methods of the continuation holders
(task_stuff.h:114-133, 160-175), invoked by `SetValue` while the fulfilling
thread still holds the state mutex (hence `locked := true` in the log).
`sid` is the state owning the holder, whose `_result_promise_` member is
mutated in place and written back. -/
def ContHolder.Call : Nat → World → Nat → ContHolder → Val → Except Err World
  | 0, _, _, _, _ => .error .outOfFuel
  | fuel+1, w, sid, ch, v =>
    match ch with
    | .plain tag f rp =>
      let w := w.logEv (.userCall tag true)
      (match f v with
       | .ok r =>
         (match Promise.SetValue fuel w rp r with
          | .ok (w, rp') =>
              .ok (w.setSt sid { w.getSt sid with cont := some (.plain tag f rp') })
          | .error e2 =>
            do
              let (w, rp') ← Promise.SetException fuel w rp e2
              pure (w.setSt sid { w.getSt sid with cont := some (.plain tag f rp') }))
       | .error e =>
         do
           let (w, rp') ← Promise.SetException fuel w rp e
           pure (w.setSt sid { w.getSt sid with cont := some (.plain tag f rp') }))
    | .plainVoid eff rp =>
      (match VoidEff.run fuel w eff v with
       | .error e =>
         do
           let (w, rp') ← Promise.SetException fuel w rp e
           pure (w.setSt sid { w.getSt sid with cont := some (.plainVoid eff rp') })
       | .ok w =>
         match Promise.SetDone fuel w rp with
         | .ok (w, rp') =>
             .ok (w.setSt sid { w.getSt sid with cont := some (.plainVoid eff rp') })
         | .error e2 =>
           do
             let (w, rp') ← Promise.SetException fuel w rp e2
             pure (w.setSt sid { w.getSt sid with cont := some (.plainVoid eff rp') }))
    | .chained tag f rp =>
      let w := w.logEv (.userCall tag true)
      (match f v with
       | .error e =>
         do
           let (w, rp') ← Promise.SetException fuel w rp e
           pure (w.setSt sid { w.getSt sid with cont := some (.chained tag f rp') })
       | .ok lower =>
         do
           let w ← Future.setChainedPromise fuel w lower rp
           pure (w.setSt sid
             { w.getSt sid with cont := some (.chained tag f PromiseObj.movedFrom) }))

/-- The `SetException` methods of the continuation holders
(task_stuff.h:135-138, 177-180): forward the exception to the result
promise. -/
def ContHolder.SetExc : Nat → World → Nat → ContHolder → Err → Except Err World
  | 0, _, _, _, _ => .error .outOfFuel
  | fuel+1, w, sid, ch, e =>
    match ch with
    | .plain tag f rp =>
      do
        let (w, rp') ← Promise.SetException fuel w rp e
        pure (w.setSt sid { w.getSt sid with cont := some (.plain tag f rp') })
    | .plainVoid eff rp =>
      do
        let (w, rp') ← Promise.SetException fuel w rp e
        pure (w.setSt sid { w.getSt sid with cont := some (.plainVoid eff rp') })
    | .chained tag f rp =>
      do
        let (w, rp') ← Promise.SetException fuel w rp e
        pure (w.setSt sid { w.getSt sid with cont := some (.chained tag f rp') })

/-- `Future<T>::_setChainedPromise` (task_stuff.h:215-243): if this future has
no state, fail the chained promise with `NoState`; otherwise under the mutex
forward an already-arrived exception or value, or store the promise in the
`_chained_promise_` slot; finally release this handle's state. -/
def Future.setChainedPromise : Nat → World → FutureObj → PromiseObj → Except Err World
  | 0, _, _, _ => .error .outOfFuel
  | fuel+1, w, f, cp =>
    match f.state with
    | none =>
      do
        let (w, _) ← Promise.SetException fuel w cp (.futureError .noState)
        pure w
    | some sid =>
      let s := w.getSt sid
      match s.exc with
      | some e =>
        do
          let (w, _) ← Promise.SetException fuel w cp e
          pure w
      | none =>
        match s.value with
        | some v =>
          do
            let (w, _) ← Promise.SetValue fuel w cp v
            pure w
        | none =>
            pure (w.setSt sid { s with chainedPromise := some cp })

/-- Invoke an `_on_exception_` observer.  `record` only logs; `whenAllExc` is
the span-`WhenAll` exception lambda. -/
def ExcFn.run : Nat → World → ExcFn → Err → Bool → Except Err World
  | 0, _, _, _, _ => .error .outOfFuel
  | fuel+1, w, ef, e, locked =>
    match ef with
    | .record tag => .ok (w.logEv (.excCall tag e locked))
    | .whenAllExc idx => whenAllOnExc fuel w idx e

/-- Run a void-returning continuation body. -/
def VoidEff.run : Nat → World → VoidEff → Val → Except Err World
  | 0, _, _, _ => .error .outOfFuel
  | fuel+1, w, .whenAllVal idx, v => whenAllOnVal fuel w idx v

/-- The span-`WhenAll` per-index value lambda (task_stuff.h:1188-1209):
store the value in slot `idx`, decrement the countdown, and if it reaches
zero fulfil the aggregate promise — with an `ExceptionAggregate` of the
non-null failure slots when any child failed, else with the value buffer.
(The `int` countdown never underflows in any run: each input completes at
most once.) -/
def whenAllOnVal : Nat → World → Nat → Val → Except Err World
  | 0, _, _, _ => .error .outOfFuel
  | fuel+1, w, idx, v =>
    let c := w.ctx
    let c := { c with values := c.values.set idx v.toNat }
    let cd := c.countdown - 1
    let c := { c with countdown := cd }
    let w := { w with ctx := c }
    if cd = 0 then
      if c.exceptionCount > 0 then
        do
          let (w, pa') ← Promise.SetException fuel w c.promiseAll
            (.aggregate (c.exceptions.filterMap id))
          pure { w with ctx := { w.ctx with promiseAll := pa' } }
      else
        do
          let (w, pa') ← Promise.SetValue fuel w c.promiseAll (.list c.values)
          pure { w with ctx := { w.ctx with promiseAll := pa' } }
    else .ok w

/-- The span-`WhenAll` per-index exception lambda (task_stuff.h:1210-1228):
store the failure in slot `idx`, bump the failure count, decrement the
countdown, and if it reaches zero fulfil the aggregate promise with the
`ExceptionAggregate` of the non-null failure slots. -/
def whenAllOnExc : Nat → World → Nat → Err → Except Err World
  | 0, _, _, _ => .error .outOfFuel
  | fuel+1, w, idx, e =>
    let c := w.ctx
    let c := { c with exceptions := c.exceptions.set idx (some e),
                      exceptionCount := c.exceptionCount + 1 }
    let cd := c.countdown - 1
    let c := { c with countdown := cd }
    let w := { w with ctx := c }
    if cd = 0 then
      do
        let (w, pa') ← Promise.SetException fuel w c.promiseAll
          (.aggregate (c.exceptions.filterMap id))
        pure { w with ctx := { w.ctx with promiseAll := pa' } }
    else .ok w

end

/-- Blocking retrieval outcomes.  In the sequential model a `Get` whose state
holds neither value nor exception waits on the condition variable forever
(`blocks`); the two exits of the wait loop are `raises` and `returns`. -/
inductive GetOutcome where
  | blocks
  | raises (e : Err)
  | returns (v : Val)

/-- `Future<T>::Get` (task_stuff.h:285-315): `NoState` on a moved-from
handle; wait until value or exception; rethrow a stored exception (note the
source then skips the release, so the handle keeps its state); else move the
value out and release the state.  Returns the outcome and the handle as the
operation leaves it. -/
def Future.Get (w : World) (f : FutureObj) : GetOutcome × FutureObj :=
  match f.state with
  | none => (.raises (.futureError .noState), f)
  | some sid =>
    let s := w.getSt sid
    match s.exc with
    | some e => (.raises e, f)
    | none =>
      match s.value with
      | some v => (.returns v, FutureObj.movedFrom)
      | none => (.blocks, f)

/-- `Future<T>::Then`, non-future-returning overload (task_stuff.h:385-440):
`NoState` on a moved-from handle; create the continuation promise/future
pair; under the mutex either forward a stored exception, invoke `fn` inline
on a stored value (mutex still held) routing result or thrown exception into
the continuation promise, or install the continuation holder; release this
handle.  Returns (world, this handle as left, continuation future). -/
def Future.Then (fuel : Nat) (w : World) (f : FutureObj) (tag : Nat)
    (fn : Val → Except Err Val) : Except Err (World × FutureObj × FutureObj) :=
  match f.state with
  | none => .error (.futureError .noState)
  | some sid =>
    let (w, p) := promiseNew w
    match getFuture p with
    | .error e => .error e
    | .ok (p, cf) =>
      let s := w.getSt sid
      match s.exc with
      | some e =>
        do
          let (w, _) ← Promise.SetException fuel w p e
          pure (w, FutureObj.movedFrom, cf)
      | none =>
        match s.value with
        | some v =>
          let w := w.logEv (.userCall tag true)
          (match fn v with
           | .ok r =>
             do
               let (w, _) ← Promise.SetValue fuel w p r
               pure (w, FutureObj.movedFrom, cf)
           | .error e =>
             do
               let (w, _) ← Promise.SetException fuel w p e
               pure (w, FutureObj.movedFrom, cf))
        | none =>
            pure (w.setSt sid { s with cont := some (.plain tag fn p) },
              FutureObj.movedFrom, cf)

/-- `Future<T>::Then` instantiated at a void-returning continuation (the
`is_same_v<resultType, void>` branch of task_stuff.h:385-440, as used by
`WhenAll`): on a stored value run the lambda then `SetDone` the continuation
promise, catching into `SetException`. -/
def Future.ThenVoid (fuel : Nat) (w : World) (f : FutureObj) (eff : VoidEff) :
    Except Err (World × FutureObj × FutureObj) :=
  match f.state with
  | none => .error (.futureError .noState)
  | some sid =>
    let (w, p) := promiseNew w
    match getFuture p with
    | .error e => .error e
    | .ok (p, cf) =>
      let s := w.getSt sid
      match s.exc with
      | some e =>
        do
          let (w, _) ← Promise.SetException fuel w p e
          pure (w, FutureObj.movedFrom, cf)
      | none =>
        match s.value with
        | some v =>
          (match VoidEff.run fuel w eff v with
           | .error e =>
             do
               let (w, _) ← Promise.SetException fuel w p e
               pure (w, FutureObj.movedFrom, cf)
           | .ok w =>
             match Promise.SetDone fuel w p with
             | .ok (w, _) => .ok (w, FutureObj.movedFrom, cf)
             | .error e2 =>
               do
                 let (w, _) ← Promise.SetException fuel w p e2
                 pure (w, FutureObj.movedFrom, cf))
        | none =>
            pure (w.setSt sid { s with cont := some (.plainVoid eff p) },
              FutureObj.movedFrom, cf)

/-- `Future<T>::Then`, future-returning overload (task_stuff.h:332-383):
on a stored exception build a fresh pair and fail it; on a stored value
invoke `fn` inline (mutex held) and return the future it produces directly
(or a fresh failed pair if it throws); otherwise install an
`InternalChainedContinuationHolder`. -/
def Future.ThenFuture (fuel : Nat) (w : World) (f : FutureObj) (tag : Nat)
    (fn : Val → Except Err FutureObj) : Except Err (World × FutureObj × FutureObj) :=
  match f.state with
  | none => .error (.futureError .noState)
  | some sid =>
    let s := w.getSt sid
    match s.exc with
    | some e =>
      let (w, p) := promiseNew w
      (match getFuture p with
       | .error e2 => .error e2
       | .ok (p, cf) =>
         do
           let (w, _) ← Promise.SetException fuel w p e
           pure (w, FutureObj.movedFrom, cf))
    | none =>
      match s.value with
      | some v =>
        let w := w.logEv (.userCall tag true)
        (match fn v with
         | .ok inner => .ok (w, FutureObj.movedFrom, inner)
         | .error e =>
           let (w, p) := promiseNew w
           (match getFuture p with
            | .error e2 => .error e2
            | .ok (p, cf) =>
              do
                let (w, _) ← Promise.SetException fuel w p e
                pure (w, FutureObj.movedFrom, cf)))
      | none =>
        let (w, p) := promiseNew w
        (match getFuture p with
         | .error e2 => .error e2
         | .ok (p, cf) =>
             .ok (w.setSt sid { s with cont := some (.chained tag fn p) },
               FutureObj.movedFrom, cf))

/-- `Future<void>::OnException` (task_stuff.h:1000-1030): on a moved-from
handle the source does **not** throw — it invokes the observer with a
`NoState` `FutureError` (outside any lock) and returns; otherwise under the
mutex invoke the observer on a stored exception, do nothing if already done,
else store the observer; release this handle. -/
def Future.OnException (fuel : Nat) (w : World) (f : FutureObj) (ef : ExcFn) :
    Except Err (World × FutureObj) :=
  match f.state with
  | none =>
    do
      let w ← ExcFn.run fuel w ef (.futureError .noState) false
      pure (w, f)
  | some sid =>
    let s := w.getSt sid
    match s.exc with
    | some e =>
      do
        let w ← ExcFn.run fuel w ef e true
        pure (w, FutureObj.movedFrom)
    | none =>
      if s.done then .ok (w, FutureObj.movedFrom)
      else .ok (w.setSt sid { s with onExc := some ef }, FutureObj.movedFrom)

/-- `Promise<T>::_clear` (task_stuff.h:455-467), run by the destructor and by
move-assignment: if the promise still owns a state and was never fulfilled,
inject a `BrokenPromise` failure, then release the state. -/
def Promise.clear (fuel : Nat) (w : World) (p : PromiseObj) :
    Except Err (World × PromiseObj) :=
  match p.state with
  | none => .ok (w, p)
  | some _ =>
    if p.valueSet then .ok (w, { p with state := none })
    else
      do
        let (w, p') ← Promise.SetException fuel w p (.futureError .brokenPromise)
        pure (w, { p' with state := none })

/-- The attachment loop of the span `WhenAll` (task_stuff.h:1186-1229):
for each input future, `Then` the value lambda and `OnException` the
exception lambda on the resulting `Future<void>`. -/
def whenAllAttach (fuel : Nat) : World → List FutureObj → Nat → Except Err World
  | w, [], _ => .ok w
  | w, f :: rest, i =>
    do
      let (w, _, rf) ← Future.ThenVoid fuel w f (.whenAllVal i)
      let (w, _) ← Future.OnException fuel w rf (.whenAllExc i)
      whenAllAttach fuel w rest (i+1)

/-- `WhenAll` over a span (task_stuff.h:1168-1232): build the shared context
(value buffer and exception buffer of size N, countdown N, failure count 0,
a fresh aggregate promise), attach the two lambdas to every input, and
return the aggregate promise's future. -/
def WhenAll (fuel : Nat) (w : World) (futures : List FutureObj) :
    Except Err (World × FutureObj) :=
  let n := futures.length
  let (w, pAll) := promiseNew w
  let w := { w with ctx := { values := List.replicate n 0, countdown := n,
                             promiseAll := pAll,
                             exceptions := List.replicate n none,
                             exceptionCount := 0 } }
  do
    let w ← whenAllAttach fuel w futures 0
    match getFuture w.ctx.promiseAll with
    | .error e => .error e
    | .ok (pAll', aggF) =>
        .ok ({ w with ctx := { w.ctx with promiseAll := pAll' } }, aggF)

/-- Destruction of the shared `WhenAllContext` (the `shared_ptr` refcount
reaching zero): the member `promise_all` is destroyed, running
`Promise::_clear`. -/
def whenAllContextDtor (fuel : Nat) (w : World) : Except Err World :=
  do
    let (w, pa') ← Promise.clear fuel w w.ctx.promiseAll
    pure { w with ctx := { w.ctx with promiseAll := pa' } }

end TaskStuff

namespace Futures

/-!  Model of `src/future_continuation.h` (namespace `Futures`), the early
incomplete sketch: one shared state per promise/future pair, no continuation
machinery.  `ValueT` is an empty struct, so the value slot carries no data;
only its presence matters. -/

/-- `Futures::PromiseFutureState`: `_value_` (an `std::optional` of the empty
`ValueT`, modelled by its presence bit) and `_exception_`. -/
structure FuState where
  hasValue : Bool := false
  exc : Option TaskStuff.Err := none

/-- A `Futures::Promise` handle: state pointer presence and the two flags. -/
structure PromiseObj where
  hasState : Bool
  futureRetrieved : Bool
  valueSet : Bool

/-- `Futures::Promise::SetValue` (future_continuation.h:182-188).  The body
is an unfinished stub — `if (_value_set_) { }` and nothing else — so the
operation takes no value, stores nothing, notifies nobody and never throws:
it leaves the promise and the state exactly as they were. -/
def Promise.SetValue (p : PromiseObj) (st : FuState) : PromiseObj × FuState :=
  (p, st)

/-- `Futures::Promise::~Promise` (future_continuation.h:154-162): if the
promise still owns a state and was never fulfilled, store a `BrokenPromise`
`FutureError` into the state and notify waiters. -/
def Promise.dtor (p : PromiseObj) (st : FuState) : FuState :=
  if !p.valueSet && p.hasState then
    { st with exc := some (.futureError .brokenPromise) }
  else st

/-- `Futures::Future::Get` (future_continuation.h:107-132): wait until value
or exception, throw a stored exception, else return the (empty-struct)
value, here rendered as `.nat 0`. -/
def Future.Get (st : FuState) : TaskStuff.GetOutcome :=
  match st.exc with
  | some e => .raises e
  | none => if st.hasValue then .returns (.nat 0) else .blocks

end Futures

namespace TaskStuff

/-! ## End-to-end scenarios

Each scenario is a straight-line client program over the embedded library,
mirroring the usage patterns quantified over by the claims.  They return the
observations the claims talk about (get outcomes and the event log); a
top-level `.error` would mean some operation threw to the client. -/

/-- Claim C1 scenario: create a producer, obtain its consumer, observe a
`Get` before fulfilment (it finds the state empty and waits), fulfil with
`v`, observe `Get` after fulfilment. -/
def c1Scenario (v : Val) : Except Err (GetOutcome × GetOutcome) :=
  let (w, p) := promiseNew {}
  match getFuture p with
  | .error e => .error e
  | .ok (p, f) =>
    let before := (Future.Get w f).1
    match Promise.SetValue 20 w p v with
    | .error e => .error e
    | .ok (w, _) => .ok (before, (Future.Get w f).1)

/-- Claims C2/C5 scenario: attach `consumer.Then(f).Then(g)` (tags 1, 2),
then fulfil the producer with `v`; observe the final `Get` and the event
log. -/
def chainAttachFirst (f g : Val → Except Err Val) (v : Val) :
    Except Err (GetOutcome × List Event) :=
  let (w, p) := promiseNew {}
  match getFuture p with
  | .error e => .error e
  | .ok (p, c) =>
    match Future.Then 20 w c 1 f with
    | .error e => .error e
    | .ok (w, _, c1) =>
      match Future.Then 20 w c1 2 g with
      | .error e => .error e
      | .ok (w, _, c2) =>
        match Promise.SetValue 20 w p v with
        | .error e => .error e
        | .ok (w, _) => .ok ((Future.Get w c2).1, w.log)

/-- Claim C2 scenario, opposite interleaving: fulfil the producer with `v`
first, then attach `Then(f).Then(g)` (each invoked inline on the stored
value). -/
def chainFulfillFirst (f g : Val → Except Err Val) (v : Val) :
    Except Err (GetOutcome × List Event) :=
  let (w, p) := promiseNew {}
  match getFuture p with
  | .error e => .error e
  | .ok (p, c) =>
    match Promise.SetValue 20 w p v with
    | .error e => .error e
    | .ok (w, _) =>
      match Future.Then 20 w c 1 f with
      | .error e => .error e
      | .ok (w, _, c1) =>
        match Future.Then 20 w c1 2 g with
        | .error e => .error e
        | .ok (w, _, c2) => .ok ((Future.Get w c2).1, w.log)

/-- Claim C3 scenario (attach first): two producers; on the first consumer
attach a future-returning continuation that hands back the second consumer;
fulfil the outer producer with `v`, then the inner one with `iv`; observe
the final `Get` and the log. -/
def unwrapAttachFirst (v iv : Val) : Except Err (GetOutcome × List Event) :=
  let (w, p1) := promiseNew {}
  match getFuture p1 with
  | .error e => .error e
  | .ok (p1, c1) =>
    let (w, p2) := promiseNew w
    match getFuture p2 with
    | .error e => .error e
    | .ok (p2, c2) =>
      match Future.ThenFuture 20 w c1 1 (fun _ => .ok c2) with
      | .error e => .error e
      | .ok (w, _, r) =>
        match Promise.SetValue 20 w p1 v with
        | .error e => .error e
        | .ok (w, _) =>
          match Promise.SetValue 20 w p2 iv with
          | .error e => .error e
          | .ok (w, _) => .ok ((Future.Get w r).1, w.log)

/-- Claim C3 scenario (outer already fulfilled): the outer producer is
fulfilled before `Then`, so the continuation runs inline and its future is
returned directly; the inner producer is fulfilled afterwards. -/
def unwrapFulfillFirst (v iv : Val) : Except Err GetOutcome :=
  let (w, p1) := promiseNew {}
  match getFuture p1 with
  | .error e => .error e
  | .ok (p1, c1) =>
    let (w, p2) := promiseNew w
    match getFuture p2 with
    | .error e => .error e
    | .ok (p2, c2) =>
      match Promise.SetValue 20 w p1 v with
      | .error e => .error e
      | .ok (w, _) =>
        match Future.ThenFuture 20 w c1 1 (fun _ => .ok c2) with
        | .error e => .error e
        | .ok (w, _, r) =>
          match Promise.SetValue 20 w p2 iv with
          | .error e => .error e
          | .ok (w, _) => .ok (Future.Get w r).1

/-- Claim C4 scenario: create a pair, destroy the producer unfulfilled
(`Promise::_clear`), then `Get` the consumer. -/
def brokenScenario : Except Err GetOutcome :=
  let (w, p) := promiseNew {}
  match getFuture p with
  | .error e => .error e
  | .ok (p, f) =>
    match Promise.clear 20 w p with
    | .error e => .error e
    | .ok (w, _) => .ok (Future.Get w f).1

/-- Claim C4 scenario with a waiting continuation downstream: attach
`Then(f)` first, then destroy the producer unfulfilled; `Get` the
downstream consumer. -/
def brokenDownstream (f : Val → Except Err Val) : Except Err (GetOutcome × List Event) :=
  let (w, p) := promiseNew {}
  match getFuture p with
  | .error e => .error e
  | .ok (p, c) =>
    match Future.Then 20 w c 1 f with
    | .error e => .error e
    | .ok (w, _, c1) =>
      match Promise.clear 20 w p with
      | .error e => .error e
      | .ok (w, _) => .ok ((Future.Get w c1).1, w.log)

/-- Claim C6 scenario: the upstream has already failed with `e` when
`Then(f)` is attached. -/
def thenOnFailed (e : Err) (f : Val → Except Err Val) :
    Except Err (GetOutcome × List Event) :=
  let (w, p) := promiseNew {}
  match getFuture p with
  | .error e2 => .error e2
  | .ok (p, c) =>
    match Promise.SetException 20 w p e with
    | .error e2 => .error e2
    | .ok (w, _) =>
      match Future.Then 20 w c 1 f with
      | .error e2 => .error e2
      | .ok (w, _, c1) => .ok ((Future.Get w c1).1, w.log)

/-- Claim C6 scenario, future-returning overload. -/
def thenFutureOnFailed (e : Err) (f : Val → Except Err FutureObj) :
    Except Err (GetOutcome × List Event) :=
  let (w, p) := promiseNew {}
  match getFuture p with
  | .error e2 => .error e2
  | .ok (p, c) =>
    match Promise.SetException 20 w p e with
    | .error e2 => .error e2
    | .ok (w, _) =>
      match Future.ThenFuture 20 w c 1 f with
      | .error e2 => .error e2
      | .ok (w, _, c1) => .ok ((Future.Get w c1).1, w.log)

/-- Claim C9 scenario: fulfil, `Get` (succeeds and consumes the handle),
then `Get` again on the handle the first `Get` left behind. -/
def secondGetAfterValue (v : Val) : Except Err (GetOutcome × GetOutcome) :=
  let (w, p) := promiseNew {}
  match getFuture p with
  | .error e => .error e
  | .ok (p, f) =>
    match Promise.SetValue 20 w p v with
    | .error e => .error e
    | .ok (w, _) =>
      let (o1, f1) := Future.Get w f
      .ok (o1, (Future.Get w f1).1)

/-- Claim C9 scenario: fail the producer, `Get` (raises the stored failure —
and, in the source, skips the state release), then `Get` again. -/
def secondGetAfterError (e : Err) : Except Err (GetOutcome × GetOutcome) :=
  let (w, p) := promiseNew {}
  match getFuture p with
  | .error e2 => .error e2
  | .ok (p, f) =>
    match Promise.SetException 20 w p e with
    | .error e2 => .error e2
    | .ok (w, _) =>
      let (o1, f1) := Future.Get w f
      .ok (o1, (Future.Get w f1).1)

/-- Claim C9 scenario: `Then` consumes the handle; a second `Then` on the
handle it left behind. -/
def secondThen (f g : Val → Except Err Val) :
    Except Err (Except Err (World × FutureObj × FutureObj)) :=
  let (w, p) := promiseNew {}
  match getFuture p with
  | .error e => .error e
  | .ok (_, c) =>
    match Future.Then 20 w c 1 f with
    | .error e => .error e
    | .ok (w, used, _) => .ok (Future.Then 20 w used 2 g)

/-- Claim C9 scenario: fulfil twice / fail after fulfilling. -/
def doubleFulfill (v v2 : Val) (e : Err) :
    Except Err (Except Err (World × PromiseObj) × Except Err (World × PromiseObj)) :=
  let (w, p) := promiseNew {}
  match getFuture p with
  | .error e2 => .error e2
  | .ok (p, _) =>
    match Promise.SetValue 20 w p v with
    | .error e2 => .error e2
    | .ok (w, p) =>
      .ok (Promise.SetValue 20 w p v2, Promise.SetException 20 w p e)

/-- Claim C10 scenario: `WhenAll` over an empty span; `Get` the aggregate
before and after the combinator context is destroyed. -/
def emptyWhenAll : Except Err (GetOutcome × GetOutcome) :=
  match WhenAll 20 {} [] with
  | .error e => .error e
  | .ok (w, agg) =>
    let before := (Future.Get w agg).1
    match whenAllContextDtor 20 w with
    | .error e => .error e
    | .ok w => .ok (before, (Future.Get w agg).1)

/-! ## WhenAll scenarios (claims C7, C8)

The scenario is parametrised by the number `n` of inputs, the per-index
outcome (`fails i = some e` makes child `i` fail with `e`, otherwise it is
fulfilled with `vals i`), and the completion order `ord` — an arbitrary
permutation of the input indices, capturing "in any completion order". -/

/-- Create `n` producer/consumer pairs (`Promise` constructor followed by
`GetFuture`), index `k` of the returned lists owning heap state
`w.states.length + k`. -/
def mkPairs : Nat → World → World × List PromiseObj × List FutureObj
  | 0, w => (w, [], [])
  | n+1, w =>
    let (w, p) := promiseNew w
    match getFuture p with
    | .error _ => (w, [], [])
    | .ok (p, f) =>
      let (w, ps, fs) := mkPairs n w
      (w, p :: ps, f :: fs)

/-- Complete the input producers in the order given by the index list:
`SetException` for failing indices, `SetValue` otherwise. -/
def fulfillAll (fuel : Nat) (vals : Nat → Nat) (fails : Nat → Option Err) :
    World → List PromiseObj → List Nat → Except Err World
  | w, _, [] => .ok w
  | w, ps, i :: rest =>
    match ps[i]? with
    | none => .error .outOfFuel
    | some p =>
      match (match fails i with
             | some e => Promise.SetException fuel w p e
             | none => Promise.SetValue fuel w p (.nat (vals i))) with
      | .error e => .error e
      | .ok (w, p') => fulfillAll fuel vals fails w (ps.set i p') rest

/-- Claims C7/C8 scenario: `n` pairs, `WhenAll` over the consumers, complete
every producer in order `ord`, `Get` the aggregate. -/
def whenAllScenario (n : Nat) (vals : Nat → Nat) (fails : Nat → Option Err)
    (ord : List Nat) : Except Err GetOutcome :=
  let (w, ps, fs) := mkPairs n {}
  match WhenAll 20 w fs with
  | .error e => .error e
  | .ok (w, agg) =>
    match fulfillAll 20 vals fails w ps ord with
    | .error e => .error e
    | .ok w => .ok (Future.Get w agg).1

/-! ### The invariant world of a running WhenAll

After `mkPairs n` and `WhenAll`, the heap holds `2n+1` states: inputs
`0..n-1`, the aggregate state `n`, and the `Future<void>` states `n+1+i`
produced by the per-input `Then`.  `waWorld n vals fails procd` describes
the world after the children listed in `procd` (pairwise distinct input
indices) have completed. -/

/-- Input state `i`: its installed continuation holder, whose result promise
points at void state `n+1+i`; `done_` is the result promise's fulfilment
flag, set once child `i` has completed. -/
def inputSt (n i : Nat) (done_ : Bool) : FState :=
  { cont := some (.plainVoid (.whenAllVal i) ⟨some (n+1+i), true, done_⟩) }

/-- Void state for input `i`: carries the `WhenAll` exception observer; its
`_done_` flag is set by the `SetDone` that follows a successful child. -/
def voidSt (i : Nat) (d : Bool) : FState :=
  { done := d, onExc := some (.whenAllExc i) }

/-- Contents of the context's value buffer at slot `i`. -/
def waFanValues (vals : Nat → Nat) (fails : Nat → Option Err)
    (procd : List Nat) (i : Nat) : Nat :=
  if i ∈ procd then (match fails i with | none => vals i | some _ => 0) else 0

/-- Contents of the context's exception buffer at slot `i`. -/
def waFanExc (fails : Nat → Option Err) (procd : List Nat) (i : Nat) : Option Err :=
  if i ∈ procd then fails i else none

/-- The context's failure count. -/
def waExcCount (fails : Nat → Option Err) (procd : List Nat) : Nat :=
  (procd.filter (fun i => (fails i).isSome)).length

/-- The aggregate state: empty until the countdown reaches zero, then
fulfilled with the aggregate failure or the value buffer. -/
def waAgg (n : Nat) (vals : Nat → Nat) (fails : Nat → Option Err)
    (procd : List Nat) : FState :=
  if procd.length = n then
    (if 0 < waExcCount fails procd then
      { exc := some (.aggregate
          (((List.range n).map (waFanExc fails procd)).filterMap id)) }
    else
      { value := some (.list ((List.range n).map (waFanValues vals fails procd))) })
  else {}

/-- Heap state `j` of the running combinator. -/
def waStates (n : Nat) (vals : Nat → Nat) (fails : Nat → Option Err)
    (procd : List Nat) (j : Nat) : FState :=
  if j < n then inputSt n j (decide (j ∈ procd))
  else if j = n then waAgg n vals fails procd
  else voidSt (j - (n+1))
    (decide (j - (n+1) ∈ procd) && (fails (j - (n+1))).isNone)

/-- The world of a running `WhenAll` after the children in `procd` have
completed. -/
def waWorld (n : Nat) (vals : Nat → Nat) (fails : Nat → Option Err)
    (procd : List Nat) : World :=
  { states := (List.range (2*n+1)).map (waStates n vals fails procd),
    ctx := { values := (List.range n).map (waFanValues vals fails procd),
             countdown := n - procd.length,
             promiseAll := ⟨some n, true, decide (procd.length = n)⟩,
             exceptions := (List.range n).map (waFanExc fails procd),
             exceptionCount := waExcCount fails procd },
    log := [] }

/-- The world after `k` of the `n` attachment-loop iterations (before the
aggregate future is retrieved): inputs `< k` carry their continuation, the
`k` void states exist, the context promise's future is not yet handed
out. -/
def waPartialStates (n k : Nat) (j : Nat) : FState :=
  if j < n then (if j < k then inputSt n j false else {})
  else if j = n then {}
  else voidSt (j - (n+1)) false

/-- The partially attached world (see `waPartialStates`). -/
def waPartial (n k : Nat) : World :=
  { states := (List.range (n+1+k)).map (waPartialStates n k),
    ctx := { values := List.replicate n 0, countdown := n,
             promiseAll := ⟨some n, false, false⟩,
             exceptions := List.replicate n none, exceptionCount := 0 },
    log := [] }

/-- The world immediately after the WhenAll value/exception lambda for a
completing child `i` has run (context updated, aggregate possibly fulfilled),
before `SetDone` on the void state and the holder write-back. -/
def waMidWorld (n : Nat) (vals : Nat → Nat) (fails : Nat → Option Err)
    (procd : List Nat) (i : Nat) : World :=
  { states := (List.range (2*n+1)).map
      (fun j => if j = n then waAgg n vals fails (procd ++ [i])
                else waStates n vals fails procd j),
    ctx := { values := (List.range n).map (waFanValues vals fails (procd ++ [i])),
             countdown := n - (procd.length + 1),
             promiseAll := ⟨some n, true, decide (procd.length + 1 = n)⟩,
             exceptions := (List.range n).map (waFanExc fails (procd ++ [i])),
             exceptionCount := waExcCount fails (procd ++ [i]) },
    log := [] }

/-! ### List helpers -/

theorem map_range_getD {α : Type} (m j : Nat) (f : Nat → α) (d : α) (hj : j < m) :
    ((List.range m).map f).getD j d = f j := by
  rw [List.getD_eq_getElem?_getD, List.getElem?_map, List.getElem?_range hj]
  rfl

theorem map_range_set {α : Type} (m j : Nat) (x : α) (f : Nat → α) (hj : j < m) :
    ((List.range m).map f).set j x
      = (List.range m).map (fun k => if k = j then x else f k) := by
  apply List.ext_getElem?
  intro i
  simp only [List.getElem?_set, List.getElem?_map, List.length_map, List.length_range]
  by_cases hij : j = i
  · subst hij
    simp [hj, List.getElem?_range hj]
  · by_cases him : i < m
    · simp [hij, List.getElem?_range him, Ne.symm hij]
    · have hnone : (List.range m)[i]? = none := by
        simp only [List.getElem?_eq_none_iff, List.length_range]
        omega
      simp [hij, hnone]

theorem length_filterMap_eq {α β : Type} (g : α → Option β) (l : List α) :
    (l.filterMap g).length = (l.filter (fun a => (g a).isSome)).length := by
  induction l with
  | nil => rfl
  | cons hd tl ih =>
    cases hg : g hd <;>
      simp [List.filterMap_cons, List.filter_cons, hg, ih]

/-! ### Single-branch evaluation lemmas for the machine

Each lemma unfolds one operation under hypotheses selecting its branch, with
the recursive sub-call's result supplied as a hypothesis; scenario and
invariant proofs compose them bottom-up. -/

theorem setValue_store (fuel : Nat) (w : World) (sid : Nat) (b : Bool) (v : Val)
    (hc : (w.getSt sid).cont = none) (hch : (w.getSt sid).chainedPromise = none) :
    Promise.SetValue (fuel+1) w ⟨some sid, b, false⟩ v
      = .ok (w.setSt sid { w.getSt sid with value := some v }, ⟨some sid, b, true⟩) := by
  simp only [Promise.SetValue, hc, hch]
  rfl

theorem setValue_cont (fuel : Nat) (w : World) (sid : Nat) (b : Bool) (v : Val)
    (ch : ContHolder) (w2 : World)
    (hc : (w.getSt sid).cont = some ch)
    (hcall : ContHolder.Call fuel w sid ch v = .ok w2) :
    Promise.SetValue (fuel+1) w ⟨some sid, b, false⟩ v = .ok (w2, ⟨some sid, b, true⟩) := by
  simp only [Promise.SetValue, hc, hcall]
  rfl

theorem setException_store (fuel : Nat) (w : World) (sid : Nat) (b : Bool) (e : Err)
    (hc : (w.getSt sid).cont = none) (hch : (w.getSt sid).chainedPromise = none)
    (hoe : (w.getSt sid).onExc = none) :
    Promise.SetException (fuel+1) w ⟨some sid, b, false⟩ e
      = .ok (w.setSt sid { w.getSt sid with exc := some e }, ⟨some sid, b, true⟩) := by
  simp only [Promise.SetException, hc, hch, hoe]
  rfl

theorem setException_cont (fuel : Nat) (w : World) (sid : Nat) (b : Bool) (e : Err)
    (ch : ContHolder) (w2 : World)
    (hc : (w.getSt sid).cont = some ch)
    (hcall : ContHolder.SetExc fuel w sid ch e = .ok w2) :
    Promise.SetException (fuel+1) w ⟨some sid, b, false⟩ e = .ok (w2, ⟨some sid, b, true⟩) := by
  simp only [Promise.SetException, hc, hcall]
  rfl

theorem setException_onExc (fuel : Nat) (w : World) (sid : Nat) (b : Bool) (e : Err)
    (ef : ExcFn) (w2 : World)
    (hc : (w.getSt sid).cont = none) (hch : (w.getSt sid).chainedPromise = none)
    (hoe : (w.getSt sid).onExc = some ef)
    (hrun : ExcFn.run fuel w ef e true = .ok w2) :
    Promise.SetException (fuel+1) w ⟨some sid, b, false⟩ e = .ok (w2, ⟨some sid, b, true⟩) := by
  simp only [Promise.SetException, hc, hch, hoe, hrun]
  rfl

theorem setDone_store (fuel : Nat) (w : World) (sid : Nat) (b : Bool)
    (hc : (w.getSt sid).cont = none) (hch : (w.getSt sid).chainedPromise = none) :
    Promise.SetDone (fuel+1) w ⟨some sid, b, false⟩
      = .ok (w.setSt sid { w.getSt sid with done := true }, ⟨some sid, b, true⟩) := by
  simp only [Promise.SetDone, hc, hch]
  rfl

theorem contCall_plainVoid (fuel : Nat) (w : World) (sid : Nat) (eff : VoidEff)
    (rp : PromiseObj) (v : Val) (w2 w3 : World) (rp2 : PromiseObj)
    (hrun : VoidEff.run fuel w eff v = .ok w2)
    (hdone : Promise.SetDone fuel w2 rp = .ok (w3, rp2)) :
    ContHolder.Call (fuel+1) w sid (.plainVoid eff rp) v
      = .ok (w3.setSt sid { w3.getSt sid with cont := some (.plainVoid eff rp2) }) := by
  simp only [ContHolder.Call, hrun, hdone]

theorem contSetExc_plainVoid (fuel : Nat) (w : World) (sid : Nat) (eff : VoidEff)
    (rp : PromiseObj) (e : Err) (w2 : World) (rp2 : PromiseObj)
    (hset : Promise.SetException fuel w rp e = .ok (w2, rp2)) :
    ContHolder.SetExc (fuel+1) w sid (.plainVoid eff rp) e
      = .ok (w2.setSt sid { w2.getSt sid with cont := some (.plainVoid eff rp2) }) := by
  simp only [ContHolder.SetExc, hset]
  rfl

theorem excFnRun_whenAll (fuel : Nat) (w : World) (idx : Nat) (e : Err) (locked : Bool) :
    ExcFn.run (fuel+1) w (.whenAllExc idx) e locked = whenAllOnExc fuel w idx e := rfl

theorem voidEffRun_whenAll (fuel : Nat) (w : World) (idx : Nat) (v : Val) :
    VoidEff.run (fuel+1) w (.whenAllVal idx) v = whenAllOnVal fuel w idx v := rfl

/-! ### The WhenAll invariant argument -/

theorem waWorld_getSt (n : Nat) (vals : Nat → Nat) (fails : Nat → Option Err)
    (procd : List Nat) (j : Nat) (hj : j < 2*n+1) :
    (waWorld n vals fails procd).getSt j = waStates n vals fails procd j := by
  simp only [waWorld, World.getSt]
  exact map_range_getD (2*n+1) j _ _ hj

theorem waStates_input (n : Nat) (vals : Nat → Nat) (fails : Nat → Option Err)
    (procd : List Nat) (i : Nat) (hin : i < n) (hni : i ∉ procd) :
    waStates n vals fails procd i = inputSt n i false := by
  simp [waStates, hin, hni]

theorem waStates_void (n : Nat) (vals : Nat → Nat) (fails : Nat → Option Err)
    (procd : List Nat) (i : Nat) (hin : i < n) (hni : i ∉ procd) :
    waStates n vals fails procd (n+1+i) = voidSt i false := by
  have h1 : ¬ (n+1+i < n) := by omega
  have h2 : ¬ (n+1+i = n) := by omega
  have h3 : n+1+i-(n+1) = i := by omega
  simp [waStates, h1, h2, h3, hni]

theorem waStates_agg (n : Nat) (vals : Nat → Nat) (fails : Nat → Option Err)
    (procd : List Nat) (hlen : procd.length ≠ n) :
    waStates n vals fails procd n = ({} : FState) := by
  simp [waStates, waAgg, hlen]



theorem getSt_setSt_ne (w : World) (i j : Nat) (s : FState) (h : i ≠ j) :
    (w.setSt i s).getSt j = w.getSt j := by
  simp [World.setSt, World.getSt, List.getD_eq_getElem?_getD, List.getElem?_set, h]

theorem procd_length_lt (n i : Nat) (procd : List Nat)
    (hin : i < n) (hni : i ∉ procd) (hsub : ∀ j ∈ procd, j < n) (hnd : procd.Nodup) :
    procd.length < n := by
  have h1 : (i :: procd).Nodup := List.nodup_cons.mpr ⟨hni, hnd⟩
  have hsubset : (i :: procd).toFinset ⊆ Finset.range n := by
    intro j hj
    rw [List.mem_toFinset] at hj
    rw [Finset.mem_range]
    rcases List.mem_cons.mp hj with h | h
    · omega
    · exact hsub j h
  have hcard := Finset.card_le_card hsubset
  rw [List.toFinset_card_of_nodup h1, Finset.card_range] at hcard
  simpa using hcard

theorem waFanValues_append (n : Nat) (vals : Nat → Nat) (fails : Nat → Option Err)
    (procd : List Nat) (i : Nat) (hin : i < n) (hfi : fails i = none) :
    ((List.range n).map (waFanValues vals fails procd)).set i (vals i)
      = (List.range n).map (waFanValues vals fails (procd ++ [i])) := by
  rw [map_range_set n i _ _ hin]
  apply List.map_congr_left
  intro k _
  by_cases hk : k = i
  · subst hk
    simp [waFanValues, hfi]
  · simp [waFanValues, hk, List.mem_append]

theorem waFanExc_append_none (n : Nat) (fails : Nat → Option Err)
    (procd : List Nat) (i : Nat) (hfi : fails i = none) :
    (List.range n).map (waFanExc fails procd)
      = (List.range n).map (waFanExc fails (procd ++ [i])) := by
  apply List.map_congr_left
  intro k _
  by_cases hk : k = i
  · subst hk
    simp [waFanExc, hfi]
  · simp [waFanExc, hk, List.mem_append]

theorem waFanExc_append_some (n : Nat) (fails : Nat → Option Err)
    (procd : List Nat) (i : Nat) (e : Err) (hin : i < n) (hfi : fails i = some e) :
    ((List.range n).map (waFanExc fails procd)).set i (some e)
      = (List.range n).map (waFanExc fails (procd ++ [i])) := by
  rw [map_range_set n i _ _ hin]
  apply List.map_congr_left
  intro k _
  by_cases hk : k = i
  · subst hk
    simp [waFanExc, hfi]
  · simp [waFanExc, hk, List.mem_append]

theorem waExcCount_append_none (fails : Nat → Option Err) (procd : List Nat) (i : Nat)
    (hfi : fails i = none) :
    waExcCount fails (procd ++ [i]) = waExcCount fails procd := by
  simp [waExcCount, List.filter_append, hfi]

theorem waExcCount_append_some (fails : Nat → Option Err) (procd : List Nat) (i : Nat)
    (e : Err) (hfi : fails i = some e) :
    waExcCount fails (procd ++ [i]) = waExcCount fails procd + 1 := by
  simp [waExcCount, List.filter_append, hfi]



theorem waFanValues_append_some (n : Nat) (vals : Nat → Nat) (fails : Nat → Option Err)
    (procd : List Nat) (i : Nat) (e : Err) (hfi : fails i = some e) :
    (List.range n).map (waFanValues vals fails procd)
      = (List.range n).map (waFanValues vals fails (procd ++ [i])) := by
  apply List.map_congr_left
  intro k _
  by_cases hk : k = i
  · subst hk
    simp [waFanValues, hfi]
  · simp [waFanValues, hk, List.mem_append]

theorem setException_aggState (fuel : Nat) (sts : List FState) (cx : WAContext)
    (lg : List Event) (n : Nat) (b : Bool) (e : Err)
    (hst : sts.getD n {} = {}) :
    Promise.SetException (fuel+1) ⟨sts, cx, lg⟩ ⟨some n, b, false⟩ e
      = .ok (⟨sts.set n { exc := some e }, cx, lg⟩, ⟨some n, b, true⟩) := by
  simp only [Promise.SetException, World.getSt, hst]
  rfl

theorem setValue_aggState (fuel : Nat) (sts : List FState) (cx : WAContext)
    (lg : List Event) (n : Nat) (b : Bool) (v : Val)
    (hst : sts.getD n {} = {}) :
    Promise.SetValue (fuel+1) ⟨sts, cx, lg⟩ ⟨some n, b, false⟩ v
      = .ok (⟨sts.set n { value := some v }, cx, lg⟩, ⟨some n, b, true⟩) := by
  simp only [Promise.SetValue, World.getSt, hst]
  rfl

theorem waAgg_last_val (n : Nat) (vals : Nat → Nat) (fails : Nat → Option Err)
    (procd : List Nat) (i : Nat)
    (hlast : procd.length + 1 = n) (hC0 : waExcCount fails (procd ++ [i]) = 0) :
    waAgg n vals fails (procd ++ [i])
      = { value := some (.list ((List.range n).map
            (waFanValues vals fails (procd ++ [i])))) } := by
  simp [waAgg, hlast, hC0]

theorem waAgg_last_exc (n : Nat) (vals : Nat → Nat) (fails : Nat → Option Err)
    (procd : List Nat) (i : Nat)
    (hlast : procd.length + 1 = n) (hCpos : 0 < waExcCount fails (procd ++ [i])) :
    waAgg n vals fails (procd ++ [i])
      = { exc := some (.aggregate
            (((List.range n).map (waFanExc fails (procd ++ [i]))).filterMap id)) } := by
  simp [waAgg, hlast, hCpos]

theorem whenAllOnVal_spec (fuel n : Nat) (vals : Nat → Nat) (fails : Nat → Option Err)
    (procd : List Nat) (i : Nat)
    (hin : i < n) (hni : i ∉ procd) (hsub : ∀ j ∈ procd, j < n) (hnd : procd.Nodup)
    (hfi : fails i = none) :
    whenAllOnVal (fuel+2) (waWorld n vals fails procd) i (.nat (vals i))
      = .ok (waMidWorld n vals fails procd i) := by
  have hlen : procd.length < n := procd_length_lt n i procd hin hni hsub hnd
  have hlapp : (procd ++ [i]).length = procd.length + 1 := by simp
  have hdec : decide (procd.length = n) = false := decide_eq_false (by omega)
  have hcd : n - procd.length - 1 = n - (procd.length + 1) := by omega
  simp only [whenAllOnVal, waWorld, Val.toNat]
  rw [waFanValues_append n vals fails procd i hin hfi, hcd]
  rcases Nat.lt_or_ge (procd.length + 1) n with hmid | hlast
  · -- not the last completion: only the context changes
    have hne : ¬ (n - (procd.length + 1) = 0) := by omega
    have hdec1 : decide (procd.length + 1 = n) = false := decide_eq_false (by omega)
    simp only [hne, if_false]
    simp only [waMidWorld, hdec, hdec1, waExcCount_append_none fails procd i hfi,
      ← waFanExc_append_none n fails procd i hfi]
    have hstates : (List.range (2*n+1)).map
        (fun j => if j = n then waAgg n vals fails (procd ++ [i])
                  else waStates n vals fails procd j)
        = (List.range (2*n+1)).map (waStates n vals fails procd) := by
      apply List.map_congr_left
      intro j _
      by_cases hj : j = n
      · rw [if_pos hj, hj, waStates_agg n vals fails procd (by omega)]
        simp only [waAgg, List.length_append, List.length_singleton]
        rw [if_neg (by omega)]
      · rw [if_neg hj]
    rw [hstates]
  · -- the last completion: the aggregate promise is fulfilled
    have hlast' : procd.length + 1 = n := by omega
    have hz : n - (procd.length + 1) = 0 := by omega
    have hdec1 : decide (procd.length + 1 = n) = true := decide_eq_true hlast'
    rw [hz, if_pos rfl, hdec]
    have hstAgg : ((List.range (2*n+1)).map (waStates n vals fails procd)).getD n
        ({} : FState) = {} := by
      rw [map_range_getD (2*n+1) n _ _ (by omega)]
      exact waStates_agg n vals fails procd (by omega)
    have hCeq := waExcCount_append_none fails procd i hfi
    rcases Nat.eq_zero_or_pos (waExcCount fails procd) with hC0 | hCpos
    · rw [hC0, if_neg (by omega)]
      rw [setValue_aggState fuel _ _ _ n true _ hstAgg]
      have hagg := waAgg_last_val n vals fails procd i hlast' (by omega)
      simp only [waMidWorld, hdec1, hz, hCeq, hC0, hagg,
        ← waFanExc_append_none n fails procd i hfi]
      have hsts : ((List.range (2*n+1)).map (waStates n vals fails procd)).set n
          { value := some (.list ((List.range n).map (waFanValues vals fails (procd ++ [i])))) }
          = (List.range (2*n+1)).map
              (fun j => if j = n then
                  ({ value := some (.list ((List.range n).map
                      (waFanValues vals fails (procd ++ [i])))) } : FState)
                else waStates n vals fails procd j) := by
        rw [map_range_set (2*n+1) n _ _ (by omega)]
      rw [hsts]
      rfl
    · rw [if_pos hCpos]
      rw [setException_aggState fuel _ _ _ n true _ hstAgg]
      have hagg := waAgg_last_exc n vals fails procd i hlast' (by omega)
      simp only [waMidWorld, hdec1, hz, hCeq, hagg,
        ← waFanExc_append_none n fails procd i hfi]
      have hsts : ((List.range (2*n+1)).map (waStates n vals fails procd)).set n
          { exc := some (.aggregate
              (((List.range n).map (waFanExc fails procd)).filterMap id)) }
          = (List.range (2*n+1)).map
              (fun j => if j = n then
                  ({ exc := some (.aggregate
                      (((List.range n).map (waFanExc fails procd)).filterMap id)) } : FState)
                else waStates n vals fails procd j) := by
        rw [map_range_set (2*n+1) n _ _ (by omega)]
      rw [hsts]
      rfl



theorem whenAllOnExc_spec (fuel n : Nat) (vals : Nat → Nat) (fails : Nat → Option Err)
    (procd : List Nat) (i : Nat) (e : Err)
    (hin : i < n) (hni : i ∉ procd) (hsub : ∀ j ∈ procd, j < n) (hnd : procd.Nodup)
    (hfi : fails i = some e) :
    whenAllOnExc (fuel+2) (waWorld n vals fails procd) i e
      = .ok (waMidWorld n vals fails procd i) := by
  have hlen : procd.length < n := procd_length_lt n i procd hin hni hsub hnd
  have hdec : decide (procd.length = n) = false := decide_eq_false (by omega)
  have hcd : n - procd.length - 1 = n - (procd.length + 1) := by omega
  have hCeq := waExcCount_append_some fails procd i e hfi
  simp only [whenAllOnExc, waWorld]
  rw [waFanExc_append_some n fails procd i e hin hfi, hcd]
  rcases Nat.lt_or_ge (procd.length + 1) n with hmid | hlast
  · have hne : ¬ (n - (procd.length + 1) = 0) := by omega
    have hdec1 : decide (procd.length + 1 = n) = false := decide_eq_false (by omega)
    simp only [hne, if_false]
    simp only [waMidWorld, hdec, hdec1, hCeq,
      ← waFanValues_append_some n vals fails procd i e hfi]
    have hstates : (List.range (2*n+1)).map
        (fun j => if j = n then waAgg n vals fails (procd ++ [i])
                  else waStates n vals fails procd j)
        = (List.range (2*n+1)).map (waStates n vals fails procd) := by
      apply List.map_congr_left
      intro j _
      by_cases hj : j = n
      · rw [if_pos hj, hj, waStates_agg n vals fails procd (by omega)]
        simp only [waAgg, List.length_append, List.length_singleton]
        rw [if_neg (by omega)]
      · rw [if_neg hj]
    rw [hstates]
  · have hlast' : procd.length + 1 = n := by omega
    have hz : n - (procd.length + 1) = 0 := by omega
    have hdec1 : decide (procd.length + 1 = n) = true := decide_eq_true hlast'
    rw [hz, if_pos rfl, hdec]
    have hstAgg : ((List.range (2*n+1)).map (waStates n vals fails procd)).getD n
        ({} : FState) = {} := by
      rw [map_range_getD (2*n+1) n _ _ (by omega)]
      exact waStates_agg n vals fails procd (by omega)
    rw [setException_aggState fuel _ _ _ n true _ hstAgg]
    have hagg := waAgg_last_exc n vals fails procd i hlast' (by omega)
    simp only [waMidWorld, hdec1, hz, hCeq, hagg,
      ← waFanValues_append_some n vals fails procd i e hfi]
    have hsts : ((List.range (2*n+1)).map (waStates n vals fails procd)).set n
        { exc := some (.aggregate
            (((List.range n).map (waFanExc fails (procd ++ [i]))).filterMap id)) }
        = (List.range (2*n+1)).map
            (fun j => if j = n then
                ({ exc := some (.aggregate
                    (((List.range n).map (waFanExc fails (procd ++ [i]))).filterMap id)) } : FState)
              else waStates n vals fails procd j) := by
      rw [map_range_set (2*n+1) n _ _ (by omega)]
    rw [hsts]
    rfl



theorem waMid_writeback_val (n : Nat) (vals : Nat → Nat) (fails : Nat → Option Err)
    (procd : List Nat) (i : Nat)
    (hin : i < n) (hni : i ∉ procd) (hfi : fails i = none) :
    ((waMidWorld n vals fails procd i).setSt (n+1+i) (voidSt i true)).setSt i
        (inputSt n i true)
      = waWorld n vals fails (procd ++ [i]) := by
  simp only [waMidWorld, waWorld, World.setSt]
  congr 1
  · rw [map_range_set (2*n+1) (n+1+i) _ _ (by omega),
      map_range_set (2*n+1) i _ _ (by omega)]
    apply List.map_congr_left
    intro j _
    by_cases hji : j = i
    · rw [if_pos hji, hji]
      simp [waStates, hin, inputSt]
    · rw [if_neg hji]
      by_cases hjv : j = n+1+i
      · rw [if_pos hjv, hjv]
        have h1 : ¬ (n+1+i < n) := by omega
        have h2 : ¬ (n+1+i = n) := by omega
        have h3 : n+1+i-(n+1) = i := by omega
        simp [waStates, h1, h2, h3, voidSt, hfi]
      · rw [if_neg hjv]
        by_cases hjn : j = n
        · rw [if_pos hjn, hjn]
          simp [waStates]
        · rw [if_neg hjn]
          simp only [waStates, hjn, if_false]
          by_cases hjlt : j < n
          · simp [hjlt, inputSt, List.mem_append, hji]
          · have hk : j - (n+1) ≠ i := by omega
            simp [hjlt, voidSt, List.mem_append, hk]
  · simp

theorem waMid_writeback_exc (n : Nat) (vals : Nat → Nat) (fails : Nat → Option Err)
    (procd : List Nat) (i : Nat) (e : Err)
    (hin : i < n) (hni : i ∉ procd) (hfi : fails i = some e) :
    (waMidWorld n vals fails procd i).setSt i (inputSt n i true)
      = waWorld n vals fails (procd ++ [i]) := by
  simp only [waMidWorld, waWorld, World.setSt]
  congr 1
  · rw [map_range_set (2*n+1) i _ _ (by omega)]
    apply List.map_congr_left
    intro j _
    by_cases hji : j = i
    · rw [if_pos hji, hji]
      simp [waStates, hin, inputSt]
    · rw [if_neg hji]
      by_cases hjn : j = n
      · rw [if_pos hjn, hjn]
        simp [waStates]
      · rw [if_neg hjn]
        simp only [waStates, hjn, if_false]
        by_cases hjlt : j < n
        · simp [hjlt, inputSt, List.mem_append, hji]
        · by_cases hjv : j = n+1+i
          · have h3 : j-(n+1) = i := by omega
            simp [hjlt, voidSt, h3, List.mem_append, hni, hfi]
          · have hk : j - (n+1) ≠ i := by omega
            simp [hjlt, voidSt, List.mem_append, hk]
  · simp



theorem whenAllStep_val (n : Nat) (vals : Nat → Nat) (fails : Nat → Option Err)
    (procd : List Nat) (i : Nat)
    (hin : i < n) (hni : i ∉ procd) (hsub : ∀ j ∈ procd, j < n) (hnd : procd.Nodup)
    (hfi : fails i = none) :
    Promise.SetValue 20 (waWorld n vals fails procd) ⟨some i, true, false⟩ (.nat (vals i))
      = .ok (waWorld n vals fails (procd ++ [i]), ⟨some i, true, true⟩) := by
  have hgetI : (waWorld n vals fails procd).getSt i = inputSt n i false := by
    rw [waWorld_getSt n vals fails procd i (by omega),
      waStates_input n vals fails procd i hin hni]
  have hrun : VoidEff.run 18 (waWorld n vals fails procd) (.whenAllVal i) (.nat (vals i))
      = .ok (waMidWorld n vals fails procd i) := by
    rw [voidEffRun_whenAll]
    exact whenAllOnVal_spec 15 n vals fails procd i hin hni hsub hnd hfi
  have hgetV : (waMidWorld n vals fails procd i).getSt (n+1+i) = voidSt i false := by
    simp only [waMidWorld, World.getSt]
    rw [map_range_getD (2*n+1) (n+1+i) _ _ (by omega)]
    rw [if_neg (by omega)]
    exact waStates_void n vals fails procd i hin hni
  have hdone : Promise.SetDone 18 (waMidWorld n vals fails procd i)
        ⟨some (n+1+i), true, false⟩
      = .ok ((waMidWorld n vals fails procd i).setSt (n+1+i) (voidSt i true),
             ⟨some (n+1+i), true, true⟩) := by
    have := setDone_store 17 (waMidWorld n vals fails procd i) (n+1+i) true
      (by rw [hgetV]; rfl) (by rw [hgetV]; rfl)
    rw [this, hgetV]
    rfl
  have hgetI2 : ((waMidWorld n vals fails procd i).setSt (n+1+i) (voidSt i true)).getSt i
      = inputSt n i false := by
    rw [getSt_setSt_ne _ _ _ _ (by omega)]
    simp only [waMidWorld, World.getSt]
    rw [map_range_getD (2*n+1) i _ _ (by omega)]
    rw [if_neg (by omega)]
    exact waStates_input n vals fails procd i hin hni
  have hcall : ContHolder.Call 19 (waWorld n vals fails procd) i
        (.plainVoid (.whenAllVal i) ⟨some (n+1+i), true, false⟩) (.nat (vals i))
      = .ok (waWorld n vals fails (procd ++ [i])) := by
    rw [contCall_plainVoid 18 _ i _ _ _ _ _ _ hrun hdone, hgetI2]
    rw [show ({ inputSt n i false with
          cont := some (.plainVoid (.whenAllVal i) ⟨some (n+1+i), true, true⟩) } : FState)
        = inputSt n i true from rfl]
    exact congrArg Except.ok (waMid_writeback_val n vals fails procd i hin hni hfi)
  rw [setValue_cont 19 _ i true _ _ _ (by rw [hgetI]; rfl) hcall]

theorem whenAllStep_exc (n : Nat) (vals : Nat → Nat) (fails : Nat → Option Err)
    (procd : List Nat) (i : Nat) (e : Err)
    (hin : i < n) (hni : i ∉ procd) (hsub : ∀ j ∈ procd, j < n) (hnd : procd.Nodup)
    (hfi : fails i = some e) :
    Promise.SetException 20 (waWorld n vals fails procd) ⟨some i, true, false⟩ e
      = .ok (waWorld n vals fails (procd ++ [i]), ⟨some i, true, true⟩) := by
  have hgetI : (waWorld n vals fails procd).getSt i = inputSt n i false := by
    rw [waWorld_getSt n vals fails procd i (by omega),
      waStates_input n vals fails procd i hin hni]
  have hgetV : (waWorld n vals fails procd).getSt (n+1+i) = voidSt i false := by
    rw [waWorld_getSt n vals fails procd (n+1+i) (by omega)]
    exact waStates_void n vals fails procd i hin hni
  have hrun : ExcFn.run 17 (waWorld n vals fails procd) (.whenAllExc i) e true
      = .ok (waMidWorld n vals fails procd i) := by
    rw [excFnRun_whenAll]
    exact whenAllOnExc_spec 14 n vals fails procd i e hin hni hsub hnd hfi
  have hsetE : Promise.SetException 18 (waWorld n vals fails procd)
        ⟨some (n+1+i), true, false⟩ e
      = .ok (waMidWorld n vals fails procd i, ⟨some (n+1+i), true, true⟩) := by
    exact setException_onExc 17 _ (n+1+i) true e (.whenAllExc i) _
      (by rw [hgetV]; rfl) (by rw [hgetV]; rfl) (by rw [hgetV]; rfl) hrun
  have hgetI2 : (waMidWorld n vals fails procd i).getSt i = inputSt n i false := by
    simp only [waMidWorld, World.getSt]
    rw [map_range_getD (2*n+1) i _ _ (by omega)]
    rw [if_neg (by omega)]
    exact waStates_input n vals fails procd i hin hni
  have hcall : ContHolder.SetExc 19 (waWorld n vals fails procd) i
        (.plainVoid (.whenAllVal i) ⟨some (n+1+i), true, false⟩) e
      = .ok (waWorld n vals fails (procd ++ [i])) := by
    rw [contSetExc_plainVoid 18 _ i _ _ _ _ _ hsetE, hgetI2]
    rw [show ({ inputSt n i false with
          cont := some (.plainVoid (.whenAllVal i) ⟨some (n+1+i), true, true⟩) } : FState)
        = inputSt n i true from rfl]
    exact congrArg Except.ok (waMid_writeback_exc n vals fails procd i e hin hni hfi)
  rw [setException_cont 19 _ i true _ _ _ (by rw [hgetI]; rfl) hcall]



theorem map_range_snoc {α : Type} (m : Nat) (f : Nat → α) (x : α) :
    (List.range m).map f ++ [x]
      = (List.range (m+1)).map (fun j => if j = m then x else f j) := by
  have : List.range (m+1) = List.range m ++ [m] := by simpa using List.range_succ m
  rw [this, List.map_append]
  simp only [List.map_cons, List.map_nil, if_pos rfl]
  congr 1
  apply List.map_congr_left
  intro j hj
  rw [if_neg (by simp at hj; omega)]

theorem map_range_const {α : Type} (m : Nat) (x : α) :
    (List.range m).map (fun _ => x) = List.replicate m x := by
  induction m with
  | zero => rfl
  | succ k ih =>
    have : List.range (k+1) = List.range k ++ [k] := by simpa using List.range_succ k
    rw [this, List.map_append, ih]
    simp [List.replicate_succ']

theorem mkPairs_spec (n : Nat) : ∀ (w : World), mkPairs n w =
    ({ w with states := w.states ++ List.replicate n {} },
     (List.range' w.states.length n).map (fun k => ⟨some k, true, false⟩),
     (List.range' w.states.length n).map (fun k => (⟨some k⟩ : FutureObj))) := by
  induction n with
  | zero => intro w; simp [mkPairs]
  | succ m ih =>
    intro w
    show ((mkPairs (m+1) w : World × List PromiseObj × List FutureObj)) = _
    rw [mkPairs]
    simp only [promiseNew, World.alloc, getFuture]
    rw [ih]
    simp only [List.length_append, List.length_replicate, List.length_cons,
      List.length_nil]
    rw [List.range'_succ w.states.length m 1]
    simp [List.append_assoc, List.replicate_succ]



theorem except_bind_ok {ε α β : Type} (a : α) (f : α → Except ε β) :
    (Except.ok a : Except ε α) >>= f = f a := rfl

theorem thenVoid_install (fuel : Nat) (sts : List FState) (cx : WAContext)
    (lg : List Event) (k : Nat) (eff : VoidEff)
    (hk : k < sts.length) (hst : sts.getD k {} = {}) :
    Future.ThenVoid fuel ⟨sts, cx, lg⟩ ⟨some k⟩ eff
      = .ok (⟨(sts ++ [({} : FState)]).set k
                { cont := some (.plainVoid eff ⟨some sts.length, true, false⟩) }, cx, lg⟩,
             FutureObj.movedFrom, ⟨some sts.length⟩) := by
  have hg : (sts ++ [({} : FState)]).getD k ({} : FState) = ({} : FState) := by
    rw [List.getD_eq_getElem?_getD, List.getElem?_append_left hk,
      ← List.getD_eq_getElem?_getD]
    exact hst
  simp only [Future.ThenVoid, promiseNew, World.alloc, getFuture, World.getSt, hg]
  rfl

theorem onException_install (fuel : Nat) (sts : List FState) (cx : WAContext)
    (lg : List Event) (v : Nat) (ef : ExcFn)
    (hst : sts.getD v {} = {}) :
    Future.OnException fuel ⟨sts, cx, lg⟩ ⟨some v⟩ ef
      = .ok (⟨sts.set v { onExc := some ef }, cx, lg⟩, FutureObj.movedFrom) := by
  simp only [Future.OnException, World.getSt, hst]
  rfl

theorem mkPairs_init (n : Nat) : mkPairs n {} =
    (⟨List.replicate n {}, {}, []⟩,
     (List.range n).map (fun k => ⟨some k, true, false⟩),
     (List.range n).map (fun k => (⟨some k⟩ : FutureObj))) := by
  rw [mkPairs_spec n {}]
  simp [List.range_eq_range']

theorem whenAllAttach_spec (n : Nat) : ∀ (m k : Nat), k + m = n →
    whenAllAttach 20 (waPartial n k)
        ((List.range' k m).map (fun j => (⟨some j⟩ : FutureObj))) k
      = .ok (waPartial n n) := by
  intro m
  induction m with
  | zero =>
    intro k hk
    have : k = n := by omega
    subst this
    rfl
  | succ m' ih =>
    intro k hk
    have hkn : k < n := by omega
    rw [List.range'_succ k m' 1]
    simp only [List.map_cons]
    rw [whenAllAttach]
    rw [show waPartial n k
        = ⟨(List.range (n+1+k)).map (waPartialStates n k),
           { values := List.replicate n 0, countdown := n,
             promiseAll := ⟨some n, false, false⟩,
             exceptions := List.replicate n none, exceptionCount := 0 }, []⟩ from rfl]
    have hstk : ((List.range (n+1+k)).map (waPartialStates n k)).getD k ({} : FState)
        = {} := by
      rw [map_range_getD (n+1+k) k _ _ (by omega)]
      simp [waPartialStates, hkn]
    have hthen := thenVoid_install 20 ((List.range (n+1+k)).map (waPartialStates n k))
      { values := List.replicate n 0, countdown := n,
        promiseAll := ⟨some n, false, false⟩,
        exceptions := List.replicate n none, exceptionCount := 0 } [] k (.whenAllVal k)
      (by simp only [List.length_map, List.length_range]; omega) hstk
    simp only [List.length_map, List.length_range] at hthen
    rw [hthen]
    simp only [except_bind_ok]
    have hshape : (((List.range (n+1+k)).map (waPartialStates n k)) ++ [({} : FState)]).set k
          { cont := some (.plainVoid (.whenAllVal k) ⟨some (n+1+k), true, false⟩) }
        = (List.range (n+1+k+1)).map
            (fun j => if j = k then
                ({ cont := some (.plainVoid (.whenAllVal k)
                    ⟨some (n+1+k), true, false⟩) } : FState)
              else if j = n+1+k then {} else waPartialStates n k j) := by
      rw [map_range_snoc (n+1+k) (waPartialStates n k) ({} : FState),
        map_range_set (n+1+k+1) k _ _ (by omega)]
    rw [hshape]
    have hstv : ((List.range (n+1+k+1)).map
          (fun j => if j = k then
              ({ cont := some (.plainVoid (.whenAllVal k)
                  ⟨some (n+1+k), true, false⟩) } : FState)
            else if j = n+1+k then {} else waPartialStates n k j)).getD (n+1+k)
          ({} : FState) = {} := by
      rw [map_range_getD (n+1+k+1) (n+1+k) _ _ (by omega)]
      rw [if_neg (by omega), if_pos rfl]
    rw [onException_install 20 _ _ _ (n+1+k) (.whenAllExc k) hstv]
    simp only [except_bind_ok]
    have hfinal : ((List.range (n+1+k+1)).map
          (fun j => if j = k then
              ({ cont := some (.plainVoid (.whenAllVal k)
                  ⟨some (n+1+k), true, false⟩) } : FState)
            else if j = n+1+k then {} else waPartialStates n k j)).set (n+1+k)
          { onExc := some (.whenAllExc k) }
        = (List.range (n+1+(k+1))).map (waPartialStates n (k+1)) := by
      rw [map_range_set (n+1+k+1) (n+1+k) _ _ (by omega)]
      rw [show n+1+(k+1) = n+1+k+1 by omega]
      apply List.map_congr_left
      intro j _
      by_cases hjv : j = n+1+k
      · rw [if_pos hjv, hjv]
        have h1 : ¬ (n+1+k < n) := by omega
        have h2 : ¬ (n+1+k = n) := by omega
        have h3 : n+1+k-(n+1) = k := by omega
        simp [waPartialStates, h1, h2, h3, voidSt]
      · rw [if_neg hjv]
        by_cases hjk : j = k
        · rw [if_pos hjk, hjk]
          simp [waPartialStates, hkn, inputSt]
        · rw [if_neg hjk, if_neg hjv]
          simp only [waPartialStates]
          by_cases hjn : j < n
          · have : (j < k) = (j < k+1) := by
              apply propext
              constructor <;> intro <;> omega
            simp [hjn, this]
          · simp [hjn]
    rw [hfinal]
    rw [show (⟨(List.range (n+1+(k+1))).map (waPartialStates n (k+1)),
           { values := List.replicate n 0, countdown := n,
             promiseAll := ⟨some n, false, false⟩,
             exceptions := List.replicate n none, exceptionCount := 0 }, []⟩ : World)
        = waPartial n (k+1) from rfl]
    exact ih (k+1) (by omega)



theorem whenAll_setup (n : Nat) (vals : Nat → Nat) (fails : Nat → Option Err)
    (hn : 1 ≤ n) :
    WhenAll 20 ⟨List.replicate n {}, {}, []⟩
        ((List.range n).map (fun k => (⟨some k⟩ : FutureObj)))
      = .ok (waWorld n vals fails [], ⟨some n⟩) := by
  have hrepl : (List.replicate n ({} : FState)) ++ [({} : FState)]
      = (List.range (n+1+0)).map (waPartialStates n 0) := by
    rw [← List.replicate_succ' n ({} : FState)]
    rw [← map_range_const (n+1) ({} : FState)]
    apply List.map_congr_left
    intro j hj
    rw [List.mem_range] at hj
    simp only [waPartialStates]
    by_cases hjn : j < n
    · simp [hjn]
    · have : j = n := by omega
      simp [this]
  simp only [WhenAll, promiseNew, World.alloc, List.length_map, List.length_range,
    List.length_replicate]
  rw [hrepl]
  have hAttach := whenAllAttach_spec n n 0 (by omega)
  simp only [waPartial] at hAttach
  rw [List.range_eq_range' n, hAttach]
  simp only [except_bind_ok, getFuture]
  have hfin : (⟨(List.range (n+1+n)).map (waPartialStates n n),
      { values := List.replicate n 0, countdown := n,
        promiseAll := ⟨some n, true, false⟩,
        exceptions := List.replicate n none, exceptionCount := 0 }, []⟩ : World)
      = waWorld n vals fails [] := by
    simp only [waWorld]
    congr 1
    · rw [show n+1+n = 2*n+1 by omega]
      apply List.map_congr_left
      intro j hj
      rw [List.mem_range] at hj
      simp only [waPartialStates, waStates]
      by_cases hjn : j < n
      · simp [hjn, List.not_mem_nil]
      · by_cases hje : j = n
        · have h0 : ¬ ((0:Nat) = n) := by omega
          have hnn : ¬ (n < n) := by omega
          simp [hjn, hje, waAgg, hnn, h0]
        · simp [hjn, hje, voidSt]
    · have hd0 : decide (List.length ([] : List Nat) = n) = false :=
        decide_eq_false (by simp; omega)
      simp only [hd0, WAContext.mk.injEq]
      refine ⟨?hv, by simp, by simp, ?he, by simp [waExcCount]⟩
      · rw [← map_range_const n 0]
        apply List.map_congr_left
        intro j _
        simp [waFanValues]
      · rw [← map_range_const n (none : Option Err)]
        apply List.map_congr_left
        intro j _
        simp [waFanExc]
  exact congrArg
    (fun w => (Except.ok (w, (⟨some n⟩ : FutureObj)) : Except Err (World × FutureObj))) hfin



theorem fulfillAll_run (n : Nat) (vals : Nat → Nat) (fails : Nat → Option Err) :
    ∀ (rest procd : List Nat), (procd ++ rest).Nodup → (∀ j ∈ procd ++ rest, j < n) →
    fulfillAll 20 vals fails (waWorld n vals fails procd)
        ((List.range n).map (fun k => (⟨some k, true, decide (k ∈ procd)⟩ : PromiseObj)))
        rest
      = .ok (waWorld n vals fails (procd ++ rest)) := by
  intro rest
  induction rest with
  | nil =>
    intro procd _ _
    simp [fulfillAll]
  | cons i rest' ih =>
    intro procd hnd hsub
    have hin : i < n := hsub i (by simp)
    have hdisj : procd.Disjoint (i :: rest') := (List.nodup_append.mp hnd).2.2
    have hni : i ∉ procd := fun hmem => hdisj hmem (by simp)
    have hsub' : ∀ j ∈ procd, j < n := fun j hj => hsub j (by simp [hj])
    have hnd' : procd.Nodup := (List.nodup_append.mp hnd).1
    have hps : ((List.range n).map
          (fun k => (⟨some k, true, decide (k ∈ procd)⟩ : PromiseObj)))[i]?
        = some ⟨some i, true, false⟩ := by
      rw [List.getElem?_map, List.getElem?_range hin]
      simp [hni]
    simp only [fulfillAll, hps]
    have hset : ((List.range n).map
          (fun k => (⟨some k, true, decide (k ∈ procd)⟩ : PromiseObj))).set i
          ⟨some i, true, true⟩
        = (List.range n).map
            (fun k => (⟨some k, true, decide (k ∈ procd ++ [i])⟩ : PromiseObj)) := by
      rw [map_range_set n i _ _ hin]
      apply List.map_congr_left
      intro k _
      by_cases hk : k = i
      · simp [hk]
      · simp [hk, List.mem_append]
    have hrec := ih (procd ++ [i])
      (by rw [List.append_assoc]; simpa using hnd)
      (by intro j hj; rw [List.append_assoc] at hj; apply hsub; simpa using hj)
    rw [List.append_assoc] at hrec
    simp only [List.singleton_append] at hrec
    cases hfi : fails i with
    | none =>
      simp only [whenAllStep_val n vals fails procd i hin hni hsub' hnd' hfi, hset]
      exact hrec
    | some e =>
      simp only [whenAllStep_exc n vals fails procd i e hin hni hsub' hnd' hfi, hset]
      exact hrec



theorem whenAllScenario_run (n : Nat) (vals : Nat → Nat) (fails : Nat → Option Err)
    (ord : List Nat) (hn : 1 ≤ n) (hperm : ord.Perm (List.range n)) :
    whenAllScenario n vals fails ord
      = .ok ((Future.Get (waWorld n vals fails ord) ⟨some n⟩).1) := by
  have hps0 : (List.range n).map (fun k => (⟨some k, true, false⟩ : PromiseObj))
      = (List.range n).map
          (fun k => (⟨some k, true, decide (k ∈ ([] : List Nat))⟩ : PromiseObj)) := by
    apply List.map_congr_left
    intro k _
    simp
  have hrun := fulfillAll_run n vals fails ord []
    (by simpa using (hperm.nodup_iff.mpr (List.nodup_range n)))
    (by
      intro j hj
      rw [List.nil_append] at hj
      have := hperm.mem_iff.mp hj
      rw [List.mem_range] at this
      exact this)
  rw [List.nil_append] at hrun
  simp only [whenAllScenario, mkPairs_init n, whenAll_setup n vals fails hn, hps0, hrun]

/-! ## Claim theorems -/

/-- **C1.** A producer fulfilled exactly once with `v` hands exactly `v` to a
blocking `Get` on its consumer: a `Get` arriving before fulfilment finds the
state empty and waits (`.blocks` — its eventual return is the post-fulfilment
observation), and the `Get` after fulfilment returns `v`.  The second
conjunct covers the `future_continuation.h` sketch cited by the claim: its
`Promise::SetValue` body is an empty stub, so no producer can ever be
fulfilled through it — it leaves promise and state untouched. -/
theorem claim1_set_value_then_get (v : Val) :
    c1Scenario v = .ok (.blocks, .returns v)
    ∧ ∀ (p : Futures.PromiseObj) (st : Futures.FuState),
        Futures.Promise.SetValue p st = (p, st) :=
  ⟨rfl, fun _ _ => rfl⟩

/-- **C2.** For a chain `consumer.Then(f).Then(g)` and a producer fulfilled
with `v`: in both interleavings (attach before or after fulfilment) the
final `Get` returns `g (f v)` and the log shows exactly the two user calls;
if `f` throws `e`, in both interleavings the final `Get` raises `e` and the
log shows only `f`'s invocation — `g` (arbitrary, possibly itself throwing)
is never invoked. -/
theorem claim2_chain_composition (f g : Val → Val) (g2 : Val → Except Err Val)
    (v : Val) (e : Err) :
    (chainAttachFirst (fun x => .ok (f x)) (fun x => .ok (g x)) v
       = .ok (.returns (g (f v)), [.userCall 1 true, .userCall 2 true]))
    ∧ (chainFulfillFirst (fun x => .ok (f x)) (fun x => .ok (g x)) v
       = .ok (.returns (g (f v)), [.userCall 1 true, .userCall 2 true]))
    ∧ (chainAttachFirst (fun _ => .error e) g2 v = .ok (.raises e, [.userCall 1 true]))
    ∧ (chainFulfillFirst (fun _ => .error e) g2 v = .ok (.raises e, [.userCall 1 true])) :=
  ⟨rfl, rfl, rfl, rfl⟩

/-- **C3.** When a `Then` continuation returns a future, the handle `Then`
returns is a flat future of the element type (in the model, `Get` yields the
inner element directly — `Val` cannot even express nesting): with the outer
producer fulfilled with `v` and the inner future later fulfilled with `iv`,
the final `Get` returns `iv`, in both the attach-first interleaving (via the
chained-promise slot) and the already-fulfilled one (where the continuation
runs inline and its future is returned as-is). -/
theorem claim3_unwrap_returns_inner (v iv : Val) :
    unwrapAttachFirst v iv = .ok (.returns iv, [.userCall 1 true, .chainForward true])
    ∧ unwrapFulfillFirst v iv = .ok (.returns iv) :=
  ⟨rfl, rfl⟩

/-- **C4.** A producer destroyed unfulfilled injects a `BrokenPromise`
failure: a direct `Get` raises it; with a continuation already attached the
failure is forwarded downstream and the downstream `Get` raises it (no
consumer blocks).  The third conjunct covers the `future_continuation.h`
sketch cited by the claim: its `~Promise` on an unfulfilled promise stores a
`BrokenPromise` error which `Get` then raises. -/
theorem claim4_broken_promise (f : Val → Except Err Val) :
    brokenScenario = .ok (.raises (.futureError .brokenPromise))
    ∧ brokenDownstream f = .ok (.raises (.futureError .brokenPromise), [])
    ∧ ∀ (fr : Bool) (st : Futures.FuState),
        Futures.Future.Get (Futures.Promise.dtor ⟨true, fr, false⟩ st)
          = .raises (.futureError .brokenPromise) :=
  ⟨rfl, rfl, fun _ _ => rfl⟩

/-- **C5 — the code contradicts the claim.**  Every user-continuation
invocation and every chained-promise forwarding in the source happens while
the invoking thread holds the state mutex (the `std::unique_lock` scopes in
`Promise::SetValue` / `Future::Then` enclose the calls into user code), so
every logged event carries `locked := true`; the claim (and the spec's §5
and §9) require the mutex to be released first, i.e. `locked := false`.
This theorem evaluates the code on the failing inputs: continuation invoked
by fulfilment, continuation invoked inline by `Then` on a fulfilled future,
and chained-promise forwarding. -/
theorem claim5_user_code_runs_under_mutex (f g : Val → Val) (v iv : Val) :
    (chainAttachFirst (fun x => .ok (f x)) (fun x => .ok (g x)) v).map (fun r => r.2)
      = .ok [.userCall 1 true, .userCall 2 true]
    ∧ (chainFulfillFirst (fun x => .ok (f x)) (fun x => .ok (g x)) v).map (fun r => r.2)
      = .ok [.userCall 1 true, .userCall 2 true]
    ∧ (unwrapAttachFirst v iv).map (fun r => r.2)
      = .ok [.userCall 1 true, .chainForward true] :=
  ⟨rfl, rfl, rfl⟩

/-- **C6.** `Then` on an already-failed upstream does not raise to the
caller: both overloads return normally (outer `.ok`), the failure `e` is
forwarded to the downstream producer so the downstream `Get` raises `e`, and
the continuation (arbitrary) is never invoked (empty log). -/
theorem claim6_then_on_failed_forwards (e : Err) (f : Val → Except Err Val)
    (ff : Val → Except Err FutureObj) :
    thenOnFailed e f = .ok (.raises e, [])
    ∧ thenFutureOnFailed e ff = .ok (.raises e, []) :=
  ⟨rfl, rfl⟩

/-- **C9 — counterexample.**  The claim says calling an operation on a
moved-from handle raises `NoState`; but `Future<void>::OnException` on a
stateless handle does not raise: it returns normally (`.ok`) and instead
invokes the supplied observer with a `NoState` failure (outside any lock),
as the source comment "Not really sure if we should throw here or call the
function" admits. -/
theorem claim9_counterexample_onexception_no_throw :
    Future.OnException 20 {} FutureObj.movedFrom (.record 5)
      = .ok ({ states := [], ctx := {},
               log := [.excCall 5 (.futureError .noState) false] },
             FutureObj.movedFrom) := rfl

/-- **C9 (amended).**  Second use of a handle, or use of a moved-from
handle, raises `NoState` — with these exceptions: a second `GetFuture`
raises `FutureAlreadyRetrieved`; a second fulfilment raises
`PromiseAlreadySatisfied`; `OnException` on a stateless handle raises
nothing and instead invokes its observer with a `NoState` failure; and a
`Get` that re-raises a stored failure does not consume the handle, so a
repeated `Get` re-raises that same failure rather than `NoState`. -/
theorem claim9_second_use_errors (v v2 : Val) (e : Err) (f g : Val → Except Err Val)
    (ff : Val → Except Err FutureObj) (eff : VoidEff) (t tag : Nat) :
    Future.Get {} FutureObj.movedFrom = (.raises (.futureError .noState), FutureObj.movedFrom)
    ∧ Future.Then 20 {} FutureObj.movedFrom tag f = .error (.futureError .noState)
    ∧ Future.ThenFuture 20 {} FutureObj.movedFrom tag ff = .error (.futureError .noState)
    ∧ Future.ThenVoid 20 {} FutureObj.movedFrom eff = .error (.futureError .noState)
    ∧ secondGetAfterValue v = .ok (.returns v, .raises (.futureError .noState))
    ∧ secondThen f g = .ok (.error (.futureError .noState))
    ∧ (getFuture ⟨some 0, false, false⟩).map (fun r => getFuture r.1)
        = .ok (.error (.futureError .futureAlreadyRetrieved))
    ∧ getFuture PromiseObj.movedFrom = .error (.futureError .noState)
    ∧ doubleFulfill v v2 e
        = .ok (.error (.futureError .promiseAlreadySatisfied),
               .error (.futureError .promiseAlreadySatisfied))
    ∧ Promise.SetValue 20 {} PromiseObj.movedFrom v = .error (.futureError .noState)
    ∧ Promise.SetException 20 {} PromiseObj.movedFrom e = .error (.futureError .noState)
    ∧ Promise.SetDone 20 {} PromiseObj.movedFrom = .error (.futureError .noState)
    ∧ Future.OnException 20 {} FutureObj.movedFrom (.record t)
        = .ok ({ states := [], ctx := {},
                 log := [.excCall t (.futureError .noState) false] },
               FutureObj.movedFrom)
    ∧ secondGetAfterError e = .ok (.raises e, .raises e) :=
  ⟨rfl, rfl, rfl, rfl, rfl, rfl, rfl, rfl, rfl, rfl, rfl, rfl, rfl, rfl⟩

/-- **C7 — counterexample.**  The claim quantifies over every `N`, including
`N = 0`; it then promises a success value of length 0.  But for an empty
span the attachment loop never runs and the countdown, initialised to 0, is
never decremented by anybody, so nothing ever fulfils the aggregate promise:
`Get` finds the state empty and blocks — it does not return the empty
sequence. -/
theorem claim7_counterexample_empty_whenall :
    whenAllScenario 0 (fun _ => 0) (fun _ => none) [] = .ok .blocks
    ∧ whenAllScenario 0 (fun _ => 0) (fun _ => none) []
        ≠ .ok (.returns (.list ((List.range 0).map (fun _ => 0)))) :=
  ⟨rfl, fun h => GetOutcome.noConfusion (Except.ok.inj h)⟩

/-- **C7 (amended: N ≥ 1).**  For a `WhenAll` over `n ≥ 1` inputs all of
which are fulfilled with values, in any completion order (`ord` is an
arbitrary permutation of the input indices), `Get` on the aggregate future
returns the length-`n` sequence whose slot `i` holds input `i`'s value, in
input order. -/
theorem claim7_whenall_preserves_values (n : Nat) (vals : Nat → Nat) (ord : List Nat)
    (hn : 1 ≤ n) (hperm : ord.Perm (List.range n)) :
    whenAllScenario n vals (fun _ => none) ord
      = .ok (.returns (.list ((List.range n).map vals))) := by
  rw [whenAllScenario_run n vals _ ord hn hperm]
  have hlen : ord.length = n := by simpa using hperm.length_eq
  have hst : (waWorld n vals (fun _ => none) ord).getSt n
      = { value := some (.list ((List.range n).map vals)) } := by
    rw [waWorld_getSt _ _ _ _ n (by omega)]
    simp only [waStates]
    rw [if_neg (by omega), if_pos trivial]
    simp only [waAgg, hlen, if_pos trivial]
    have hcnt : waExcCount (fun _ => none) ord = 0 := by simp [waExcCount]
    rw [hcnt, if_neg (by omega)]
    have hv : (List.range n).map (waFanValues vals (fun _ => none) ord)
        = (List.range n).map vals := by
      apply List.map_congr_left
      intro j hj
      have : j ∈ ord := hperm.mem_iff.mpr hj
      simp [waFanValues, this]
    rw [hv]
  simp only [Future.Get, hst]

/-- Witness for C7 (amended): three inputs completed in order 2, 0, 1. -/
theorem claim7_whenall_preserves_values_witness :
    whenAllScenario 3 (fun i => 100 + i) (fun _ => none) [2, 0, 1]
      = .ok (.returns (.list [100, 101, 102])) :=
  claim7_whenall_preserves_values 3 (fun i => 100 + i) [2, 0, 1]
    (by omega) (by decide)

/-- **C8.** For a `WhenAll` over `n` inputs of which at least one fails
(`fails i = some e` makes child `i` fail with `e`; the failure list over the
input range is non-empty), in any completion order, the aggregate future
completes exactly once, with a failure aggregating exactly the child
failures in input-position order — no value is produced (`Get` raises). -/
theorem claim8_whenall_aggregates_failures (n : Nat) (vals : Nat → Nat)
    (fails : Nat → Option Err) (ord : List Nat) (hperm : ord.Perm (List.range n))
    (hK : (List.range n).filterMap fails ≠ []) :
    whenAllScenario n vals fails ord
      = .ok (.raises (.aggregate ((List.range n).filterMap fails))) := by
  have hn : 1 ≤ n := by
    by_contra h
    have h0 : n = 0 := by omega
    subst h0
    exact hK rfl
  rw [whenAllScenario_run n vals fails ord hn hperm]
  have hlen : ord.length = n := by simpa using hperm.length_eq
  have hcnt : 0 < waExcCount fails ord := by
    have hpf : (ord.filter (fun i => (fails i).isSome)).length
        = ((List.range n).filter (fun i => (fails i).isSome)).length :=
      (hperm.filter _).length_eq
    rw [waExcCount, hpf, ← length_filterMap_eq]
    cases hfm : (List.range n).filterMap fails with
    | nil => exact absurd hfm hK
    | cons a l => simp
  have hexcs : ((List.range n).map (waFanExc fails ord)).filterMap id
      = (List.range n).filterMap fails := by
    have hm : (List.range n).map (waFanExc fails ord) = (List.range n).map fails := by
      apply List.map_congr_left
      intro j hj
      have : j ∈ ord := hperm.mem_iff.mpr hj
      simp [waFanExc, this]
    rw [hm]
    simp [List.filterMap_map]
  have hst : (waWorld n vals fails ord).getSt n
      = { exc := some (.aggregate ((List.range n).filterMap fails)) } := by
    rw [waWorld_getSt _ _ _ _ n (by omega)]
    simp only [waStates]
    rw [if_neg (by omega), if_pos trivial]
    simp only [waAgg, hlen, if_pos trivial]
    rw [if_pos hcnt, hexcs]
  simp only [Future.Get, hst]

/-- Witness for C8: three inputs, input 1 failing, completed in order
0, 2, 1 (the failure last). -/
theorem claim8_whenall_aggregates_failures_witness :
    whenAllScenario 3 (fun i => 100 + i)
        (fun i => if i = 1 then some (.user 7) else none) [0, 2, 1]
      = .ok (.raises (.aggregate [.user 7])) :=
  claim8_whenall_aggregates_failures 3 (fun i => 100 + i)
    (fun i => if i = 1 then some (.user 7) else none) [0, 2, 1]
    (by decide) (fun h => List.noConfusion h)

/-- **C10.** `WhenAll` over zero inputs: the attachment loop never runs, the
countdown starts at 0 and is never decremented, so nothing ever fulfils the
aggregate producer — `Get` before the combinator context dies finds the
state empty (no empty-success value is produced); once the context is
destroyed, the aggregate promise's destructor injects `BrokenPromise`, and
`Get` raises it. -/
theorem claim10_empty_when_all_broken :
    emptyWhenAll = .ok (.blocks, .raises (.futureError .brokenPromise)) := rfl

end TaskStuff
